import Mathlib

/-!
Verification of the execution and caching core of the wake build runner:
a shallow embedding of the content-addressable store, the content-hash
codec, the resource manager, the job-cache database operations and the
schema-migration tool, with theorems settling the specified properties.

Conventions used throughout:
* C++ `std::string` values that are treated as byte sequences (blob
  contents, hex strings inside the codec) are modelled as `List Nat`
  of byte values; path-like strings that are only compared for equality
  are modelled as Lean `String`.
* SQLite tables are modelled as Lean lists of row structures kept in
  rowid insertion order; `order by` on an autoincrement id is the list
  order, because rows are only ever appended.
* Fallible OS calls are modelled by oracles (functions returning
  `Bool` / `Option`) so that every theorem quantifies over all
  filesystem behaviours.
-/

namespace Wake

/-- Byte strings: blob contents as lists of byte values. -/
abbrev ByteStr := List Nat

/-! ### Association-list helpers

`std::map` and the on-disk key/value maps are modelled as association
lists with a first-match lookup and an in-place value update. -/

/-- First-match lookup in an association list. -/
def alookup {κ β : Type} [DecidableEq κ] (k : κ) : List (κ × β) → Option β
  | [] => none
  | (k2, v) :: rest => if k2 = k then some v else alookup k rest

/-- Replace the value stored at `k` (appending when absent), as an
`unlink`-then-write or a `std::map` insert-or-assign does. -/
def aupdate {κ β : Type} [DecidableEq κ] (k : κ) (v : β) : List (κ × β) → List (κ × β)
  | [] => [(k, v)]
  | (k2, w) :: rest => if k2 = k then (k2, v) :: rest else (k2, w) :: aupdate k v rest

/-- Apply `f` to the value stored at `k`, leaving the list unchanged when
`k` is absent (a `std::map::find` followed by an in-place mutation). -/
def amodify {κ : Type} [DecidableEq κ] (k : κ) (f : Int → Int) :
    List (κ × Int) → List (κ × Int)
  | [] => []
  | (k2, w) :: rest => if k2 = k then (k2, f w) :: rest else (k2, w) :: amodify k f rest

/-- Remove every entry stored at `k` (POSIX `unlink`). -/
def aremove {κ β : Type} [DecidableEq κ] (k : κ) (l : List (κ × β)) : List (κ × β) :=
  l.filter (fun p => p.1 ≠ k)

/-! ### ContentHash hex codec (`src/cas/content_hash.cpp`)

Hex strings are byte strings (C++ `std::string`), so they are
`List Nat` of character codes; `48``-``57` are the digits, `97`-`102`
the lowercase and `65`-`70` the uppercase hex letters. -/

/-- `nibble_to_hex`: nibble to hex character code
(`nibble < 10 ? '0' + nibble : 'a' + nibble - 10`). -/
def nibble_to_hex (n : Nat) : Nat := if n < 10 then 48 + n else 97 + n - 10

/-- `hex_to_nibble`: hex character code to nibble, `0xFF` on a
non-hex character. -/
def hex_to_nibble (c : Nat) : Nat :=
  if 48 ≤ c ∧ c ≤ 57 then c - 48
  else if 97 ≤ c ∧ c ≤ 102 then c - 97 + 10
  else if 65 ≤ c ∧ c ≤ 70 then c - 65 + 10
  else 255

/-- The loop body of `ContentHash::from_hex`: consume the hex characters
two at a time, failing on the first non-hex character.  The source
computes `(high << 4) | low`; both nibbles are at most 15 here, so this
equals `high * 16 + low`. -/
def hex_pairs_to_bytes : List Nat → Option (List Nat)
  | [] => some []
  | hi :: lo :: rest =>
      if hex_to_nibble hi = 255 ∨ hex_to_nibble lo = 255 then none
      else (hex_pairs_to_bytes rest).map
        (fun bs => (hex_to_nibble hi * 16 + hex_to_nibble lo) :: bs)
  | _ :: [] => none

/-- Error kinds of `ContentHash::from_hex`. -/
inductive ContentHashError where
  | InvalidHexLength
  | InvalidHexChar
  deriving DecidableEq, Repr

/-- `ContentHash::from_hex`, producing the 32-byte representation the
source writes through the byte pointer into `data`. -/
def from_hex (s : List Nat) : Except ContentHashError (List Nat) :=
  if s.length ≠ 64 then .error .InvalidHexLength
  else match hex_pairs_to_bytes s with
    | none => .error .InvalidHexChar
    | some bs => .ok bs

/-- `ContentHash::to_hex` on the byte representation: the source emits
`(bytes[i] >> 4) & 0x0F` then `bytes[i] & 0x0F`, i.e. `b / 16 % 16`
and `b % 16`. -/
def to_hex : List Nat → List Nat
  | [] => []
  | b :: rest => nibble_to_hex (b / 16 % 16) :: nibble_to_hex (b % 16) :: to_hex rest

/-! ### ContentHash equality and order (`content_hash.cpp`, `content_hash.h`)

A `ContentHash` is `uint64_t data[4]`; `from_hex`/`to_hex` access it
through a byte pointer while `operator==`/`operator<` compare the
64-bit words.  On the little-endian hosts the code runs on, byte `j`
of word `i` is `(data[i] >> (8*j)) & 0xFF`, so the 32-byte
representation is the little-endian serialization of the four words. -/

/-- `ContentHash`: the four 64-bit words `data[0] .. data[3]`.
Well-formed values have every word below `2^64`. -/
structure ContentHash where
  d0 : Nat
  d1 : Nat
  d2 : Nat
  d3 : Nat
  deriving DecidableEq, Repr

/-- Word bounds of a well-formed `ContentHash` (`uint64_t` fields). -/
def ContentHash.wf (h : ContentHash) : Prop :=
  h.d0 < 2 ^ 64 ∧ h.d1 < 2 ^ 64 ∧ h.d2 < 2 ^ 64 ∧ h.d3 < 2 ^ 64

/-- `ContentHash::operator==`: word-wise comparison of `data[0..3]`. -/
def ch_eq (a b : ContentHash) : Bool :=
  a.d0 == b.d0 && a.d1 == b.d1 && a.d2 == b.d2 && a.d3 == b.d3

/-- `ContentHash::operator<`: the `for (int i = 0; i < 4; ++i)` loop
comparing the words in index order, unrolled. -/
def ch_lt (a b : ContentHash) : Bool :=
  if a.d0 < b.d0 then true else if b.d0 < a.d0 then false
  else if a.d1 < b.d1 then true else if b.d1 < a.d1 then false
  else if a.d2 < b.d2 then true else if b.d2 < a.d2 then false
  else if a.d3 < b.d3 then true else if b.d3 < a.d3 then false
  else false

/-- The `k` low-order bytes of `w`, least significant first: byte `j`
is `(w >> (8*j)) & 0xFF`, i.e. `w / 256^j % 256`. -/
def bytes_le : Nat → Nat → List Nat
  | 0, _ => []
  | k + 1, w => w % 256 :: bytes_le k (w / 256)

/-- The 32-byte representation of a `ContentHash` as seen through the
byte pointer on a little-endian host. -/
def ch_bytes (h : ContentHash) : List Nat :=
  bytes_le 8 h.d0 ++ bytes_le 8 h.d1 ++ bytes_le 8 h.d2 ++ bytes_le 8 h.d3

/-- Recompose a little-endian byte list into a number. -/
def le_val : List Nat → Nat
  | [] => 0
  | b :: rest => b + 256 * le_val rest

/-- Strict byte-lexicographic comparison of byte lists. -/
def bytes_lex_lt : List Nat → List Nat → Bool
  | [], [] => false
  | [], _ :: _ => true
  | _ :: _, [] => false
  | a :: as, b :: bs => if a < b then true else if b < a then false else bytes_lex_lt as bs

/-! ### The `Cas` store (`src/cas/cas.cpp`)

The store owns `{root}/blobs` and `{root}/staging`.  A blob lives at
`blobs/{prefix}/{suffix}` where prefix/suffix split the hex of its
hash, so the blob directory is a map keyed by the content hash; the
model keeps it as an association list `blobs`.  `store_blob` writes
the bytes to a staging temp file and renames it into the blob path,
so on the success path the staging directory is left unchanged and
only `blobs` grows.  The hash function (BLAKE2b in the source) is an
abstract parameter `H`; collision resistance enters the theorems as
injectivity of `H`. -/

/-- Error kinds surfaced by the CAS (`CASError` in `cas.h`). -/
inductive CASError where
  | NotFound
  | IOError
  | CorruptedData
  | AlreadyExists
  | InvalidHash
  deriving DecidableEq, Repr

/-- The blob directory of a `Cas`: content hash to blob bytes, one
entry per blob file under `blobs/`. -/
structure CasState (κ : Type) where
  blobs : List (κ × ByteStr)
  deriving DecidableEq

/-- `Cas::has_blob`: existence check on the computed blob path. -/
def Cas.has_blob {κ : Type} [DecidableEq κ] (st : CasState κ) (h : κ) : Bool :=
  (alookup h st.blobs).isSome

/-- `Cas::store_blob` (success path): hash the bytes; if the blob path
already exists return the hash without writing; otherwise write a
staging temp file and atomically rename it to the blob path. -/
def Cas.store_blob {κ : Type} [DecidableEq κ] (H : ByteStr → κ) (st : CasState κ)
    (data : ByteStr) : κ × CasState κ :=
  let h := H data
  match alookup h st.blobs with
  | some _ => (h, st)
  | none => (h, ⟨(h, data) :: st.blobs⟩)

/-- `Cas::read_blob`: return the bytes at the blob path, `NotFound`
when the file is absent. -/
def Cas.read_blob {κ : Type} [DecidableEq κ] (st : CasState κ) (h : κ) :
    Except CASError ByteStr :=
  match alookup h st.blobs with
  | some c => .ok c
  | none => .error .NotFound

/-- The CAS blob invariant: every blob file's content hashes to the
hash encoded in its path (spec §3, Blob). -/
def CasInv {κ : Type} [DecidableEq κ] (H : ByteStr → κ) (st : CasState κ) : Prop :=
  ∀ h c, alookup h st.blobs = some c → H c = h

/-! ### `CASStore` and the staging ingest (`src/cas/cas_store.cpp`,
`src/runtime/cas_prim.cpp`)

`prim_cas_ingest_staging_file` with kind `"file"` stores a staging
file into the `CASStore` and materializes the blob at the destination
path.  The filesystem is modelled as a map from path to regular-file
content plus the store's blob map keyed by the 32-byte hash; directory
creation (always attempted first, fallibility aside) does not touch
regular files and is not modelled.  Hashing is the abstract `H`
producing the 32-byte representation. -/

/-- Workspace filesystem plus CAS blob directory for the ingest
primitive. -/
structure WFS where
  workspace : List (String × ByteStr)
  cas : List (List Nat × ByteStr)
  deriving DecidableEq

/-- `CASStore::store_blob_from_file`: hash the file, short-circuit when
the blob path exists, else copy the file to the blob path.  `none`
models the `IOError` results (unreadable source, failed copy). -/
def CASStore.store_blob_from_file (H : ByteStr → List Nat) (fs : WFS) (path : String) :
    Option (List Nat × WFS) :=
  match alookup path fs.workspace with
  | none => none
  | some c =>
    let h := H c
    match alookup h fs.cas with
    | some _ => some (h, fs)
    | none => some (h, { fs with cas := (h, c) :: fs.cas })

/-- `CASStore::materialize_blob`: `NotFound` when the blob path is
absent; otherwise unlink any existing destination and copy the blob
into it. -/
def CASStore.materialize_blob (fs : WFS) (h : List Nat) (dest : String) : Option WFS :=
  match alookup h fs.cas with
  | none => none
  | some c => some { fs with workspace := aupdate dest c fs.workspace }

/-- String contents used in error messages, as character codes. -/
def strCodes (s : String) : List Nat := s.toList.map Char.toNat

/-- `prim_cas_ingest_staging_file`, kind `"file"`: parent directories
of `dest` are ensured (not modelled), the staging file is stored in
the CAS, the stored hash is compared against the expected hash by hex
string, and only on a match is the blob materialized at `dest`, the
mtime applied (warning-only) and the staging file unlinked
(warning-only).  `mode`, `mtime_sec` and `mtime_nsec` do not affect
the modelled state.  When `hash_str` is not valid hex the conversion
result in the source is outside `src/` (`wcl/result.h` is absent);
the theorems only use valid hex inputs, where the converted value is
the parsed hash. -/
def ingest_file (H : ByteStr → List Nat) (fs : WFS) (dest staging : String)
    (hash_str : List Nat) (_mode : Nat) (_mtime_sec _mtime_nsec : Int) :
    Except (List Nat) Unit × WFS :=
  match CASStore.store_blob_from_file H fs staging with
  | none => (.error (strCodes "Failed to store staging file in CAS: " ++ strCodes staging), fs)
  | some (stored, fs1) =>
    let expected := match from_hex hash_str with
      | .ok bs => bs
      | .error _ => []
    if to_hex expected = to_hex stored then
      match CASStore.materialize_blob fs1 stored dest with
      | none =>
        (.error (strCodes "Failed to materialize blob " ++ to_hex stored ++
          strCodes " to " ++ strCodes dest), fs1)
      | some fs2 => (.ok (), { fs2 with workspace := aremove staging fs2.workspace })
    else
      (.error (strCodes "Hash mismatch: expected " ++ hash_str ++
        strCodes " but got " ++ to_hex stored), fs1)

/-! ### Resource manager (`src/runtime/resource_manager.cpp`)

`ResourceLimits` is a map from resource name to `int64_t` limit;
`get_limit` answers `-1` for an unconfigured name, and every operation
treats a negative limit as unconfigured.  `available_` is initialized
to the configured limits.  Counts are `int64_t`, modelled as `Int`. -/

/-- `ResourceLimits::get_limit`: the configured limit, `-1` when the
name is not configured. -/
def get_limit (limits : List (String × Int)) (name : String) : Int :=
  (alookup name limits).getD (-1)

/-- `ResourceManager::can_acquire`: true iff every requirement with a
positive count on a configured (non-negative-limit) resource has
enough available; a configured name missing from `available_` answers
false. -/
def can_acquire (limits avail : List (String × Int)) (reqs : List (String × Int)) : Bool :=
  reqs.all fun req =>
    if req.2 ≤ 0 then true
    else if get_limit limits req.1 < 0 then true
    else match alookup req.1 avail with
      | none => false
      | some a => decide (req.2 ≤ a)

/-- `ResourceManager::acquire`: decrement the available count of each
positive-count requirement on a configured resource (no clamping). -/
def acquire (limits : List (String × Int)) (avail : List (String × Int))
    (reqs : List (String × Int)) : List (String × Int) :=
  reqs.foldl
    (fun av req =>
      if req.2 ≤ 0 then av
      else if get_limit limits req.1 < 0 then av
      else amodify req.1 (fun a => a - req.2) av)
    avail

/-- `ResourceManager::release`: increment the available count of each
positive-count requirement on a configured resource, clamping at the
configured limit. -/
def release (limits : List (String × Int)) (avail : List (String × Int))
    (reqs : List (String × Int)) : List (String × Int) :=
  reqs.foldl
    (fun av req =>
      if req.2 ≤ 0 then av
      else if get_limit limits req.1 < 0 then av
      else amodify req.1
        (fun a => if a + req.2 > get_limit limits req.1 then get_limit limits req.1
                  else a + req.2) av)
    avail

/-- One scheduler operation against the resource manager.  An acquire
is performed only after `can_acquire` answered true for the same
requirement list, which is the calling discipline the claim assumes. -/
inductive ROp where
  | acq (reqs : List (String × Int))
  | rel (reqs : List (String × Int))

/-- Execute one operation under the `can_acquire`-guarded discipline. -/
def rstep (limits : List (String × Int)) (avail : List (String × Int)) : ROp → List (String × Int)
  | .acq reqs => if can_acquire limits avail reqs then acquire limits avail reqs else avail
  | .rel reqs => release limits avail reqs

/-- Run a sequence of guarded operations from the initial state, in
which available counts equal the configured limits (the
`ResourceManager` constructor). -/
def rrun (limits : List (String × Int)) (ops : List ROp) : List (String × Int) :=
  ops.foldl (rstep limits) limits

/-! ### Job-cache database (`src/runtime/database.cpp`, `schema.h`)

Tables are lists of rows in autoincrement order.  The `filetree`
table references `files(file_id)`; since `files.path` is unique, the
model denormalizes the `filetree ⋈ files` join and stores the path
and hash directly on the tree row (`sql_get_tree` and the overlap
queries only ever use the join).  `tree_id` order is list order, as
rows are only appended.  REAL columns (`runtime`, `cputime`) are
copied verbatim and never computed with; they are modelled as `Int`. -/

/-- Access classes of `filetree.access`. -/
def VISIBLE : Nat := 0

/-- `filetree.access = 1`: files the job actually read. -/
def INPUT : Nat := 1

/-- `filetree.access = 2`: files the job produced. -/
def OUTPUT : Nat := 2

/-- A row of the `jobs` table. -/
structure JobRow where
  job_id : Nat
  run_id : Nat
  use_id : Nat
  label : String
  directory : String
  commandline : String
  environment : String
  stdin_file : String
  signature : Nat
  stack : String
  stat_id : Option Nat
  starttime : Int
  endtime : Int
  keep : Bool
  stale : Bool
  is_atty : Bool
  deriving DecidableEq, Repr

/-- A row of the `stats` table. -/
structure StatsRow where
  stat_id : Nat
  hashcode : Nat
  status : Int
  runtime : Int
  cputime : Int
  membytes : Int
  ibytes : Int
  obytes : Int
  deriving DecidableEq, Repr

/-- A row of the `filetree ⋈ files` join: access class, owning job,
and the referenced file's path and hash. -/
structure TreeRow where
  access : Nat
  job_id : Nat
  path : String
  hash : String
  deriving DecidableEq, Repr

/-- The database state: the tables the modelled operations touch, the
current run id, and the autoincrement counters. -/
structure DB where
  run_id : Nat
  jobs : List JobRow
  stats : List StatsRow
  filetree : List TreeRow
  files : List (String × String)
  unhashed_files : List (Nat × String)
  next_job_id : Nat
  next_stat_id : Nat
  deriving DecidableEq

/-- The `Usage` record returned by `reuse_job`/`predict_job`.  Fields
other than `found` are only ever copied from a stats row. -/
structure Usage where
  found : Bool
  status : Int
  runtime : Int
  cputime : Int
  membytes : Int
  ibytes : Int
  obytes : Int
  deriving DecidableEq, Repr

/-- The `Usage` not-found value (fields zeroed; the claims only
inspect `found`). -/
def Usage.notFound : Usage := ⟨false, 0, 0, 0, 0, 0, 0⟩

/-- The `WHERE` clause of `sql_find_prior`: all six identity columns
match and `keep=1 and stale=0`. -/
def matches_prior (directory commandline environment stdin_file : String)
    (signature : Nat) (is_atty : Bool) (r : JobRow) : Bool :=
  r.directory == directory && r.commandline == commandline &&
  r.environment == environment && r.stdin_file == stdin_file &&
  r.signature == signature && r.is_atty == is_atty && r.keep && !r.stale

/-- `sql_find_prior`: the first matching job row. -/
def find_prior (db : DB) (directory commandline environment stdin_file : String)
    (signature : Nat) (is_atty : Bool) : Option JobRow :=
  db.jobs.find? (matches_prior directory commandline environment stdin_file signature is_atty)

/-- `sql_get_tree`: the `(path, hash)` pairs of a job's rows in one
access class, in `tree_id` order. -/
def get_tree (db : DB) (job access : Nat) : List (String × String) :=
  (db.filetree.filter (fun t => t.job_id == job && t.access == access)).map
    (fun t => (t.path, t.hash))

/-- `sql_update_prior` (`update jobs set use_id=? where job_id=?`). -/
def update_use_id (jobs : List JobRow) (job new_use : Nat) : List JobRow :=
  jobs.map (fun r => if r.job_id == job then { r with use_id := new_use } else r)

/-- The read-only body of `Database::reuse_job`, given the matched
job id `jid` and its stats link `sid`: load the stats row (a missing
row demotes `found`), check every recorded input is in `visible`,
check every recorded output with the `faccess` oracle (collecting the
`(path, hash)` reflections), and clear the file list unless `found`
survived. -/
def reuse_eval (faccess : String → Bool) (db : DB) (jid sid : Nat)
    (visible : List String) : Usage × List (String × String) :=
  let statRow := db.stats.find? (fun s => s.stat_id == sid)
  let usage0 : Usage := match statRow with
    | some s => ⟨true, s.status, s.runtime, s.cputime, s.membytes, s.ibytes, s.obytes⟩
    | none => Usage.notFound
  let ins := get_tree db jid INPUT
  let outs := get_tree db jid OUTPUT
  let inputsOk := ins.all (fun pr => visible.contains pr.1)
  let outputsOk := outs.all (fun pr => faccess pr.1)
  let found := usage0.found && inputsOk && outputsOk
  ({ usage0 with found := found }, if found then outs else [])

/-- `Database::reuse_job`.  `faccess` is the
`faccessat(AT_FDCWD, path, R_OK, AT_SYMLINK_NOFOLLOW) == 0` oracle;
`visible` is the parsed NUL-separated visible list.  Returns the
`Usage`, the reflected output file list and the updated database:
when the job is found and `check` is unset, `use_id` is bumped to the
current run.  A missing `stat_id` reads as 0 through
`sqlite3_column_int64`.  (`pathtime`, copied from the same stats row,
is omitted.) -/
def reuse_job (faccess : String → Bool) (db : DB)
    (directory environment commandline stdin_file : String) (signature : Nat)
    (is_atty : Bool) (visible : List String) (check : Bool) :
    Usage × List (String × String) × DB :=
  match find_prior db directory commandline environment stdin_file signature is_atty with
  | none => (Usage.notFound, [], db)
  | some row =>
    let r := reuse_eval faccess db row.job_id (row.stat_id.getD 0) visible
    let jobs2 := if r.1.found && !check then update_use_id db.jobs row.job_id db.run_id
                 else db.jobs
    (r.1, r.2, { db with jobs := jobs2 })

/-- The filetree rows after `sql_insert_tree` of `(access, job, path)`.
The referenced file row must exist (`file_id` is selected by path and
is `not null`, so the insert errors out without a row when the path is
unknown), and `unique(job_id, access, file_id) on conflict ignore`
drops duplicates. -/
def insert_tree_rows (db : DB) (access job : Nat) (path : String) : List TreeRow :=
  match alookup path db.files with
  | none => db.filetree
  | some h =>
    if db.filetree.any (fun t => t.job_id == job && t.access == access && t.path == path) then
      db.filetree
    else db.filetree ++ [⟨access, job, path, h⟩]

/-- `sql_insert_tree` as a database update (only `filetree` changes). -/
def insert_tree (db : DB) (access job : Nat) (path : String) : DB :=
  { db with filetree := insert_tree_rows db access job path }

/-- The paths of a job's visible filetree rows (the set finish_job
checks inputs against). -/
def vis_paths (db : DB) (job : Nat) : List String :=
  (get_tree db job VISIBLE).map Prod.fst

/-- `Database::insert_job`: insert a fresh job row (`use_id = run_id`,
no stats, `keep=0`, `stale=0`) and its visible filetree rows; returns
the new job id (`sqlite3_last_insert_rowid`). -/
def insert_job (db : DB) (directory commandline environment stdin_file : String)
    (signature : Nat) (label stack : String) (is_atty : Bool) (visible : List String) :
    DB × Nat :=
  let jid := db.next_job_id
  let row : JobRow :=
    ⟨jid, db.run_id, db.run_id, label, directory, commandline, environment, stdin_file,
     signature, stack, none, 0, 0, false, false, is_atty⟩
  let db1 := { db with jobs := db.jobs ++ [row], next_job_id := jid + 1 }
  (visible.foldl (fun d p => insert_tree d VISIBLE jid p) db1, jid)

/-- The five identity columns `sql_delete_prior` compares: directory,
commandline, environment, stdin and is_atty — the signature column is
absent from the join. -/
def same_identity_nosig (a b : JobRow) : Bool :=
  a.directory == b.directory && a.commandline == b.commandline &&
  a.environment == b.environment && a.stdin_file == b.stdin_file &&
  a.is_atty == b.is_atty

/-- All six identity columns of the job cache key (directory,
commandline, environment, stdin, signature, is_atty). -/
def same_identity (a b : JobRow) : Bool :=
  same_identity_nosig a b && a.signature == b.signature

/-- `sql_delete_prior`: delete every row whose `use_id` differs from
the current run and whose `job_id` appears as `j2` in the self-join
`j1.job_id = job ∧ j1 ≈ j2` on the five compared columns with
`j2.job_id ≠ job`. -/
def delete_prior (run job : Nat) (jobs : List JobRow) : List JobRow :=
  jobs.filter fun r =>
    !(r.use_id != run &&
      jobs.any (fun j2 => j2.job_id == r.job_id && j2.job_id != job &&
        jobs.any (fun j1 => j1.job_id == job && same_identity_nosig j1 j2)))

/-- Restrict the dependent tables to the surviving jobs: the schema
declares `on delete cascade` from `filetree` and `unhashed_files` to
`jobs`. -/
def cascade_jobs (db : DB) (jobs2 : List JobRow) : DB :=
  { db with
    jobs := jobs2
    filetree := db.filetree.filter (fun t => jobs2.any (fun r => r.job_id == t.job_id))
    unhashed_files := db.unhashed_files.filter
      (fun u => jobs2.any (fun r => r.job_id == u.1)) }

/-- `sql_delete_overlap`: delete every row whose `use_id` differs from
the current run and that owns an output filetree row sharing its file
with an output row of `job`. -/
def delete_overlap (run job : Nat) (db : DB) : List JobRow :=
  db.jobs.filter fun r =>
    !(r.use_id != run &&
      db.filetree.any (fun t2 => t2.job_id == r.job_id && t2.job_id != job &&
        t2.access == OUTPUT &&
        db.filetree.any (fun t1 => t1.job_id == job && t1.access == OUTPUT &&
          t1.path == t2.path)))

/-- `sql_detect_overlap`: does any other surviving job still claim one
of `job`'s output files? -/
def detect_overlap (db : DB) (job : Nat) : Bool :=
  db.filetree.any fun t1 =>
    t1.job_id == job && t1.access == OUTPUT &&
    db.filetree.any (fun t2 => t2.path == t1.path && t2.access == OUTPUT &&
      t2.job_id != job)

/-- The `add_stats`/`link_stats` part of `finish_job`: append a stats
row with the reported usage and link the job to it together with the
start/end times and `keep`. -/
def finish_stats (db : DB) (job : Nat) (starttime endtime : Int) (hashcode : Nat)
    (keep : Bool) (reality : Usage) : DB :=
  let sid := db.next_stat_id
  let srow : StatsRow := ⟨sid, hashcode, reality.status, reality.runtime, reality.cputime,
    reality.membytes, reality.ibytes, reality.obytes⟩
  { db with
    stats := db.stats ++ [srow]
    next_stat_id := sid + 1
    jobs := db.jobs.map (fun r =>
      if r.job_id == job then
        { r with stat_id := some sid, starttime := starttime, endtime := endtime, keep := keep }
      else r) }

/-- The per-input step of `finish_job`: a visible input gets an INPUT
filetree row; a non-visible input is only reported (the offending
path is collected as the error, standing for the message written to
the error stream). -/
def finish_inputs (job : Nat) (visible : List String) (acc : DB × List String)
    (input : String) : DB × List String :=
  if visible.contains input then (insert_tree acc.1 INPUT job input, acc.2)
  else (acc.1, acc.2 ++ [input])

/-- The filetree part of `finish_job`: read the job's visible set
from `db2`, insert each visible input (collecting non-visible inputs
as errors) and insert the deduplicated outputs.  The source inserts
outputs in `std::set` order; only membership matters downstream, so
the model keeps first-occurrence order. -/
def finish_files (db2 : DB) (job : Nat) (inputs outputs : List String) : DB × List String :=
  let db3errs := inputs.foldl (finish_inputs job (vis_paths db2 job)) (db2, [])
  (outputs.eraseDups.foldl (fun d p => insert_tree d OUTPUT job p) db3errs.1, db3errs.2)

/-- The pruning tail of `finish_job`: `delete_prior` then
`delete_overlap`, each with the `on delete cascade` effect on the
dependent tables. -/
def finish_prune (db5 : DB) (job : Nat) : DB :=
  let db6 := cascade_jobs db5 (delete_prior db5.run_id job db5.jobs)
  cascade_jobs db6 (delete_overlap db6.run_id job db6)

/-- `Database::finish_job`: append a stats row and link it to the job
with the start/end times and `keep`; read the job's visible set;
insert each input that is visible (a non-visible input is only
reported, modelled by collecting its path in the error list); insert
the deduplicated outputs and the unhashed outputs
(`all_outputs ∖ outputs`); then run `delete_prior` and
`delete_overlap`; finally `detect_overlap` — a hit makes the process
exit fatally, returned here as the `Bool`. -/
def finish_job (db : DB) (job : Nat) (inputs outputs all_outputs : List String)
    (starttime endtime : Int) (hashcode : Nat) (keep : Bool) (reality : Usage) :
    DB × List String × Bool :=
  let unhashed := all_outputs.filter (fun p => !outputs.contains p)
  let db2 := finish_stats db job starttime endtime hashcode keep reality
  let dbe := finish_files db2 job inputs outputs
  let db5 := { dbe.1 with
    unhashed_files := dbe.1.unhashed_files ++ unhashed.map (fun p => (job, p)) }
  let db7 := finish_prune db5 job
  (db7, dbe.2, detect_overlap db7 job)

/-- The invariant of C10: every recorded input row of job `j` has its
path among `j`'s recorded visible paths. -/
def inputs_visible (db : DB) (j : Nat) : Prop :=
  ∀ t ∈ db.filetree, t.job_id = j → t.access = INPUT → t.path ∈ vis_paths db j

/-- Prior job row with signature 5 (job 1, kept, from run 0). -/
def jrow_sig5 : JobRow := ⟨1, 0, 0, "", "d", "c", "e", "", 5, "", none, 0, 0, true, false, false⟩

/-- Job row identical to `jrow_sig5` except for its signature (job 2,
the current run's row). -/
def jrow_sig6 : JobRow := ⟨2, 1, 1, "", "d", "c", "e", "", 6, "", none, 0, 0, true, false, false⟩

/-- Job row differing from `jrow_sig6` in the directory column. -/
def jrow_dir : JobRow := ⟨3, 0, 0, "", "x", "c", "e", "", 6, "", none, 0, 0, true, false, false⟩

/-- A database whose job 1 has `a.txt` visible and both `a.txt` and
`b.txt` registered in `files` (used as a concrete instance in
theorems below). -/
def db_vis_job : DB where
  run_id := 1
  jobs := [⟨1, 0, 0, "", "d", "c", "e", "", 0, "", none, 0, 0, false, false, false⟩]
  stats := []
  filetree := [⟨VISIBLE, 1, "a.txt", "h"⟩]
  files := [("a.txt", "h"), ("b.txt", "h2")]
  unhashed_files := []
  next_job_id := 2
  next_stat_id := 1

/-! ### Migration tool (`tools/wake-migrate/main.cpp`, `runtime/schema.h`)

The tool's control flow over its fallible environment: each SQLite or
filesystem call is an oracle in `MigrateWorld`.  The observable
outcome is the exit code together with whether `{path}.migrated`
still exists, whether the original database file is still at its
path, and whether it was moved to `{path}.backup`.  The registered
migrations cover exactly the steps 6→7, 7→8 and 8→9
(`get_migrations`), while `SCHEMA_VERSION` is `"10"`. -/

/-- `std::stoi(SCHEMA_VERSION)` with `SCHEMA_VERSION = "10"`. -/
def target_version : Nat := 10

/-- The oracles for the tool's fallible calls, plus the stored schema
version the two `get_version` queries report. -/
structure MigrateWorld where
  open_ok : Bool
  lock_ok : Bool
  checkpoint_ok : Bool
  stored_version : Nat
  open_temp_ok : Bool
  clone_ok : Bool
  begin_ok : Nat → Bool
  apply_ok : Nat → Bool
  setv_ok : Nat → Bool
  commit_ok : Nat → Bool
  schema_ok : Bool
  integrity_ok : Bool
  checkpoint2_ok : Bool
  move_backup_ok : Bool
  final_rename_ok : Bool

/-- `apply_migrations(db, v, v+1)`: succeeds only when a migration is
registered for `v → v+1` — the registry holds 6→7, 7→8 and 8→9 —
and its SQL succeeds. -/
def apply_migrations (w : MigrateWorld) (v : Nat) : Bool :=
  (v == 6 || v == 7 || v == 8) && w.apply_ok v

/-- The stepwise loop of `migrate_via_copy`: for each step
`v → v + 1`, begin a transaction, apply the migration, stamp the
version and commit. -/
def migrate_loop (w : MigrateWorld) (v tgt : Nat) : Bool :=
  if v < tgt then
    (w.begin_ok v && apply_migrations w v && w.setv_ok v && w.commit_ok v) &&
      migrate_loop w (v + 1) tgt
  else true
termination_by tgt - v

/-- `migrate_via_copy`: open the temp database, clone via the backup
API, run the stepwise loop, apply the schema DDL, run the integrity
check and checkpoint. -/
def migrate_via_copy (w : MigrateWorld) (current : Nat) : Bool :=
  w.open_temp_ok && w.clone_ok && migrate_loop w current target_version &&
    w.schema_ok && w.integrity_ok && w.checkpoint2_ok

/-- The tool's observable outcome. -/
structure MigrateResult where
  exitCode : Nat
  migratedExists : Bool
  originalAtPath : Bool
  backupExists : Bool
  deriving DecidableEq, Repr

/-- `main` of the migration tool (the `argc == 2` path): open and
lock the database, checkpoint its WAL, compare the stored and target
versions, and on a needed upgrade run `migrate_via_copy`; on its
failure `remove_with_aux` deletes `{path}.migrated` and the original
has never been written.  Then the original is renamed to
`{path}.backup` and the migrated file renamed into place. -/
def wake_migrate_main (w : MigrateWorld) : MigrateResult :=
  if !w.open_ok then ⟨1, false, true, false⟩
  else if !w.lock_ok then ⟨1, false, true, false⟩
  else if !w.checkpoint_ok then ⟨1, false, true, false⟩
  else
    let current := w.stored_version
    if current = target_version then ⟨0, false, true, false⟩
    else if current > target_version then ⟨1, false, true, false⟩
    else if current < 6 then ⟨1, false, true, false⟩
    else if !migrate_via_copy w current then ⟨1, false, true, false⟩
    else if !w.move_backup_ok then ⟨1, false, true, false⟩
    else if !w.final_rename_ok then ⟨1, true, false, true⟩
    else ⟨0, false, false, true⟩

/-- A migration world whose every oracle succeeds, over a version-7
database (used as a concrete instance in theorems below). -/
def mw_ok_v7 : MigrateWorld :=
  ⟨true, true, true, 7, true, true, fun _ => true, fun _ => true, fun _ => true,
   fun _ => true, true, true, true, true, true⟩

/-- The resource-manager invariant: every configured resource has an
available count within `[0, L]` of its limit `L`. -/
def avail_in_bounds (limits avail : List (String × Int)) : Prop :=
  ∀ n L, alookup n limits = some L → ∃ a, alookup n avail = some a ∧ 0 ≤ a ∧ a ≤ L

/-- A one-job database whose kept, finished job 1 recorded the input
`a.txt` (used as a concrete instance in theorems below). -/
def db_one_job : DB where
  run_id := 1
  jobs := [⟨1, 0, 0, "", "d", "c", "e", "", 0, "", some 1, 0, 0, true, false, false⟩]
  stats := [⟨1, 0, 0, 0, 0, 0, 0, 0⟩]
  filetree := [⟨INPUT, 1, "a.txt", "h"⟩]
  files := [("a.txt", "h")]
  unhashed_files := []
  next_job_id := 2
  next_stat_id := 2

/-! ## Helper lemmas -/

theorem alookup_eq_some_mem {κ β : Type} [DecidableEq κ] {k : κ} {v : β} :
    ∀ {l : List (κ × β)}, alookup k l = some v → (k, v) ∈ l := by
  intro l
  induction l with
  | nil => intro h; simp [alookup] at h
  | cons p rest ih =>
    obtain ⟨a, b⟩ := p
    intro h
    rw [alookup] at h
    split at h
    · rename_i heq
      cases h
      subst heq
      exact List.mem_cons_self _ _
    · exact List.mem_cons_of_mem _ (ih h)

theorem alookup_amodify_self {κ : Type} [DecidableEq κ] (k : κ) (f : Int → Int) :
    ∀ (l : List (κ × Int)), alookup k (amodify k f l) = (alookup k l).map f := by
  intro l
  induction l with
  | nil => simp [alookup, amodify]
  | cons p rest ih =>
    obtain ⟨a, b⟩ := p
    by_cases h : a = k
    · subst h
      simp [amodify, alookup]
    · simp [amodify, alookup, h, ih]

theorem alookup_amodify_other {κ : Type} [DecidableEq κ] {k m : κ} (f : Int → Int)
    (hne : m ≠ k) : ∀ (l : List (κ × Int)), alookup m (amodify k f l) = alookup m l := by
  intro l
  induction l with
  | nil => simp [alookup, amodify]
  | cons p rest ih =>
    obtain ⟨a, b⟩ := p
    by_cases h : a = k
    · subst h
      have ham : ¬a = m := fun hh => hne hh.symm
      simp [amodify, alookup, ham, ih]
    · by_cases h2 : a = m
      · subst h2
        simp [amodify, alookup, h]
      · simp [amodify, alookup, h, h2, ih]

/-- `hex_to_nibble` of a valid hex character is a nibble. -/
theorem hex_to_nibble_lt {c : Nat} (h : hex_to_nibble c ≠ 255) : hex_to_nibble c < 16 := by
  simp only [hex_to_nibble] at h ⊢
  split_ifs at h ⊢ <;> omega

/-- On a lowercase hex character the codec round-trips. -/
theorem nibble_round_lower {c : Nat}
    (h : (48 ≤ c ∧ c ≤ 57) ∨ (97 ≤ c ∧ c ≤ 102)) :
    nibble_to_hex (hex_to_nibble c) = c := by
  rcases h with h | h
  · have e : hex_to_nibble c = c - 48 := by
      simp only [hex_to_nibble]
      rw [if_pos h]
    rw [e]
    simp only [nibble_to_hex]
    rw [if_pos (by omega)]
    omega
  · have e : hex_to_nibble c = c - 97 + 10 := by
      simp only [hex_to_nibble]
      rw [if_neg (by omega), if_pos h]
    rw [e]
    simp only [nibble_to_hex]
    rw [if_neg (by omega)]
    omega

/-- `hex_pairs_to_bytes` on an even-length valid string succeeds and
its bytes hex back to the nibble-wise normalization of the input. -/
theorem hex_pairs_to_bytes_valid :
    ∀ (s : List Nat), s.length % 2 = 0 → (∀ c ∈ s, hex_to_nibble c ≠ 255) →
    ∃ bs, hex_pairs_to_bytes s = some bs ∧
      to_hex bs = s.map (fun c => nibble_to_hex (hex_to_nibble c)) := by
  intro s
  induction s using hex_pairs_to_bytes.induct with
  | case1 =>
    intro _ _
    exact ⟨[], rfl, rfl⟩
  | case2 hi lo rest hguard =>
    intro hlen hvalid
    exfalso
    have hhi : hex_to_nibble hi ≠ 255 := hvalid hi (by simp)
    have hlo : hex_to_nibble lo ≠ 255 := hvalid lo (by simp)
    rcases hguard with hg | hg
    · exact hhi hg
    · exact hlo hg
  | case3 hi lo rest hguard ih =>
    intro hlen hvalid
    have hrest : rest.length % 2 = 0 := by
      simp [List.length_cons] at hlen
      omega
    have hvrest : ∀ c ∈ rest, hex_to_nibble c ≠ 255 := fun c hc => hvalid c (by simp [hc])
    obtain ⟨bs, hbs, hhex⟩ := ih hrest hvrest
    have hhi16 : hex_to_nibble hi < 16 := hex_to_nibble_lt (hvalid hi (by simp))
    have hlo16 : hex_to_nibble lo < 16 := hex_to_nibble_lt (hvalid lo (by simp))
    refine ⟨(hex_to_nibble hi * 16 + hex_to_nibble lo) :: bs, ?_, ?_⟩
    · rw [hex_pairs_to_bytes, if_neg hguard, hbs]
      rfl
    · rw [to_hex, hhex]
      have e1 : (hex_to_nibble hi * 16 + hex_to_nibble lo) / 16 % 16 = hex_to_nibble hi := by
        omega
      have e2 : (hex_to_nibble hi * 16 + hex_to_nibble lo) % 16 = hex_to_nibble lo := by
        omega
      rw [e1, e2]
      rfl
  | case4 x =>
    intro hlen _
    exfalso
    simp at hlen

/-- Bytes produced by `hex_pairs_to_bytes` are byte values. -/
theorem hex_pairs_to_bytes_lt :
    ∀ (s bs : List Nat), hex_pairs_to_bytes s = some bs → ∀ b ∈ bs, b < 256 := by
  intro s
  induction s using hex_pairs_to_bytes.induct with
  | case1 =>
    intro bs hbs
    cases hbs
    simp
  | case2 hi lo rest hguard =>
    intro bs hbs
    rw [hex_pairs_to_bytes, if_pos hguard] at hbs
    cases hbs
  | case3 hi lo rest hguard ih =>
    intro bs hbs
    rw [hex_pairs_to_bytes, if_neg hguard] at hbs
    have hguard2 := hguard
    rw [not_or] at hguard2
    have h1 : hex_to_nibble hi < 16 := hex_to_nibble_lt hguard2.1
    have h2 : hex_to_nibble lo < 16 := hex_to_nibble_lt hguard2.2
    cases hrest : hex_pairs_to_bytes rest with
    | none => rw [hrest] at hbs; cases hbs
    | some bs2 =>
      rw [hrest] at hbs
      cases hbs
      intro b hb
      rcases List.mem_cons.mp hb with hb | hb
      · subst hb
        omega
      · exact ih bs2 hrest b hb
  | case4 x =>
    intro bs hbs
    rw [hex_pairs_to_bytes] at hbs
    cases hbs

/-! ## C6: hex round-trip -/

/-- C6, counterexample: the all-uppercase string `"A" * 64` is a
64-character string of `[0-9a-fA-F]` characters, `from_hex` accepts
it, but `to_hex` of the result is the lowercase `"a" * 64`, not the
input — so `from_hex(h).to_hex() == h` fails on valid uppercase hex. -/
theorem from_hex_to_hex_uppercase_counterexample :
    (List.replicate 64 65).length = 64 ∧
    (∀ c ∈ List.replicate 64 65, hex_to_nibble c ≠ 255) ∧
    from_hex (List.replicate 64 65) = .ok (List.replicate 32 170) ∧
    to_hex (List.replicate 32 170) ≠ List.replicate 64 65 :=
  ⟨by decide, by decide, rfl, by decide⟩

/-- C6 (amended): for every 64-character string of `[0-9a-fA-F]`
characters `from_hex` succeeds, and when the letters are lowercase
(`[0-9a-f]`) the round-trip `to_hex (from_hex s) = s` holds. -/
theorem from_hex_to_hex_roundtrip (s : List Nat) (hlen : s.length = 64)
    (hvalid : ∀ c ∈ s, hex_to_nibble c ≠ 255) :
    ∃ bs, from_hex s = .ok bs ∧
      ((∀ c ∈ s, (48 ≤ c ∧ c ≤ 57) ∨ (97 ≤ c ∧ c ≤ 102)) → to_hex bs = s) := by
  obtain ⟨bs, hbs, hhex⟩ := hex_pairs_to_bytes_valid s (by omega) hvalid
  refine ⟨bs, ?_, ?_⟩
  · rw [from_hex, if_neg (by omega), hbs]
  · intro hlow
    rw [hhex]
    have hcongr : s.map (fun c => nibble_to_hex (hex_to_nibble c)) = s.map id :=
      List.map_congr_left (fun c hc => nibble_round_lower (hlow c hc))
    rw [hcongr, List.map_id]

/-- C6, witness: the all-zero hash string round-trips. -/
theorem from_hex_to_hex_roundtrip_witness :
    ∃ bs, from_hex (List.replicate 64 48) = .ok bs ∧ to_hex bs = List.replicate 64 48 := by
  obtain ⟨bs, h1, h2⟩ := from_hex_to_hex_roundtrip (List.replicate 64 48) (by decide) (by decide)
  exact ⟨bs, h1, h2 (by decide)⟩

/-! ## C7: hash equality and order -/

theorem bytes_le_length : ∀ (k w : Nat), (bytes_le k w).length = k := by
  intro k
  induction k with
  | zero => intro w; rfl
  | succ n ih => intro w; simp [bytes_le, ih]

theorem le_val_bytes_le : ∀ (k w : Nat), w < 256 ^ k → le_val (bytes_le k w) = w := by
  intro k
  induction k with
  | zero =>
    intro w hw
    simp [Nat.pow_zero] at hw
    simp [bytes_le, le_val, hw]
  | succ n ih =>
    intro w hw
    have hdiv : w / 256 < 256 ^ n := by
      rw [Nat.div_lt_iff_lt_mul (by norm_num : 0 < 256)]
      calc w < 256 ^ (n + 1) := hw
        _ = 256 ^ n * 256 := by rw [Nat.pow_succ]
    rw [bytes_le, le_val, ih (w / 256) hdiv]
    omega

theorem bytes_le_inj {a b : Nat} (ha : a < 2 ^ 64) (hb : b < 2 ^ 64)
    (h : bytes_le 8 a = bytes_le 8 b) : a = b := by
  have h256 : (2 : Nat) ^ 64 = 256 ^ 8 := by norm_num
  have h1 := le_val_bytes_le 8 a (h256 ▸ ha)
  have h2 := le_val_bytes_le 8 b (h256 ▸ hb)
  rw [← h1, ← h2, h]

/-- `ch_lt` as the lexicographic word order. -/
theorem ch_lt_iff (a b : ContentHash) :
    ch_lt a b = true ↔ (a.d0 < b.d0 ∨ (a.d0 = b.d0 ∧ (a.d1 < b.d1 ∨ (a.d1 = b.d1 ∧
      (a.d2 < b.d2 ∨ (a.d2 = b.d2 ∧ a.d3 < b.d3)))))) := by
  simp only [ch_lt]
  split_ifs <;> simp <;> omega

/-- `ch_eq` as word-wise equality. -/
theorem ch_eq_iff (a b : ContentHash) :
    ch_eq a b = true ↔ (a.d0 = b.d0 ∧ a.d1 = b.d1 ∧ a.d2 = b.d2 ∧ a.d3 = b.d3) := by
  simp [ch_eq, and_assoc]

/-- C7, counterexample: for the well-formed hashes with byte
representations `01 00 ... 00` and `00 02 00 ... 00` (words
`1` and `512`), `operator<` says the first is smaller, while the
byte-lexicographic order on the 32-byte representation says the
second is smaller — so `a < b` is not byte-lexicographic. -/
theorem ch_lt_not_byte_lex_counterexample :
    ContentHash.wf ⟨1, 0, 0, 0⟩ ∧ ContentHash.wf ⟨512, 0, 0, 0⟩ ∧
    ch_lt ⟨1, 0, 0, 0⟩ ⟨512, 0, 0, 0⟩ = true ∧
    bytes_lex_lt (ch_bytes ⟨1, 0, 0, 0⟩) (ch_bytes ⟨512, 0, 0, 0⟩) = false ∧
    bytes_lex_lt (ch_bytes ⟨512, 0, 0, 0⟩) (ch_bytes ⟨1, 0, 0, 0⟩) = true := by
  refine ⟨?_, ?_, ?_, ?_, ?_⟩ <;> first
    | decide
    | exact (by unfold ContentHash.wf; refine ⟨?_, ?_, ?_, ?_⟩ <;> norm_num)

/-- C7 (amended): `operator==` agrees with equality of the 32-byte
representation, and `operator<` is a strict total order on hashes —
namely the lexicographic order on the word sequence
`(data[0], data[1], data[2], data[3])`, which on a little-endian
host is not the byte-lexicographic order on the 32 bytes. -/
theorem ch_eq_bytes_and_lt_strict_order (a b c : ContentHash)
    (ha : a.wf) (hb : b.wf) :
    (ch_eq a b = true ↔ ch_bytes a = ch_bytes b) ∧
    ch_lt a a = false ∧
    (ch_lt a b = true → ch_lt b a = false) ∧
    (ch_lt a b = true → ch_lt b c = true → ch_lt a c = true) ∧
    (ch_eq a b = false → ch_lt a b = true ∨ ch_lt b a = true) := by
  obtain ⟨ha0, ha1, ha2, ha3⟩ := ha
  obtain ⟨hb0, hb1, hb2, hb3⟩ := hb
  refine ⟨?_, ?_, ?_, ?_, ?_⟩
  · constructor
    · intro h
      obtain ⟨e0, e1, e2, e3⟩ := (ch_eq_iff a b).mp h
      rw [ch_bytes, ch_bytes, e0, e1, e2, e3]
    · intro h
      rw [ch_bytes, ch_bytes] at h
      have len3 : (bytes_le 8 a.d0 ++ bytes_le 8 a.d1 ++ bytes_le 8 a.d2).length =
          (bytes_le 8 b.d0 ++ bytes_le 8 b.d1 ++ bytes_le 8 b.d2).length := by
        simp [List.length_append, bytes_le_length]
      obtain ⟨h012, h3⟩ := List.append_inj h (by simpa using len3)
      have len2 : (bytes_le 8 a.d0 ++ bytes_le 8 a.d1).length =
          (bytes_le 8 b.d0 ++ bytes_le 8 b.d1).length := by
        simp [List.length_append, bytes_le_length]
      obtain ⟨h01, h2⟩ := List.append_inj h012 (by simpa using len2)
      obtain ⟨h0, h1⟩ := List.append_inj h01 (by simp [bytes_le_length])
      exact (ch_eq_iff a b).mpr
        ⟨bytes_le_inj ha0 hb0 h0, bytes_le_inj ha1 hb1 h1,
         bytes_le_inj ha2 hb2 h2, bytes_le_inj ha3 hb3 h3⟩
  · cases hr : ch_lt a a with
    | false => rfl
    | true =>
      exfalso
      have := (ch_lt_iff a a).mp hr
      omega
  · intro h
    have h1 := (ch_lt_iff a b).mp h
    cases hr : ch_lt b a with
    | false => rfl
    | true =>
      exfalso
      have h2 := (ch_lt_iff b a).mp hr
      omega
  · intro h1 h2
    have g1 := (ch_lt_iff a b).mp h1
    have g2 := (ch_lt_iff b c).mp h2
    exact (ch_lt_iff a c).mpr (by omega)
  · intro h
    have hne : ¬(a.d0 = b.d0 ∧ a.d1 = b.d1 ∧ a.d2 = b.d2 ∧ a.d3 = b.d3) := by
      intro hc
      rw [(ch_eq_iff a b).mpr hc] at h
      cases h
    have : (a.d0 < b.d0 ∨ (a.d0 = b.d0 ∧ (a.d1 < b.d1 ∨ (a.d1 = b.d1 ∧
        (a.d2 < b.d2 ∨ (a.d2 = b.d2 ∧ a.d3 < b.d3)))))) ∨
        (b.d0 < a.d0 ∨ (b.d0 = a.d0 ∧ (b.d1 < a.d1 ∨ (b.d1 = a.d1 ∧
        (b.d2 < a.d2 ∨ (b.d2 = a.d2 ∧ b.d3 < a.d3)))))) := by omega
    rcases this with h1 | h1
    · exact Or.inl ((ch_lt_iff a b).mpr h1)
    · exact Or.inr ((ch_lt_iff b a).mpr h1)

/-- C7, witness: the amended theorem at two concrete hashes. -/
theorem ch_eq_bytes_and_lt_strict_order_witness :
    (ch_eq ⟨1, 0, 0, 0⟩ ⟨512, 0, 0, 0⟩ = true ↔
      ch_bytes ⟨1, 0, 0, 0⟩ = ch_bytes ⟨512, 0, 0, 0⟩) ∧
    ch_lt ⟨1, 0, 0, 0⟩ ⟨1, 0, 0, 0⟩ = false := by
  have h := ch_eq_bytes_and_lt_strict_order ⟨1, 0, 0, 0⟩ ⟨512, 0, 0, 0⟩ ⟨0, 0, 0, 0⟩
    (by unfold ContentHash.wf; refine ⟨?_, ?_, ?_, ?_⟩ <;> norm_num)
    (by unfold ContentHash.wf; refine ⟨?_, ?_, ?_, ?_⟩ <;> norm_num)
  exact ⟨h.1, h.2.1⟩

/-! ## C9: migration tool exit codes and cleanup -/

/-- With `SCHEMA_VERSION = 10` and migrations registered only for
6→7, 7→8 and 8→9, the stepwise loop from any version below 10 fails
(the 9→10 step has no registered migration). -/
theorem migrate_loop_to_target_false (w : MigrateWorld) :
    ∀ v, v < 10 → migrate_loop w v 10 = false := by
  intro v hv
  interval_cases v <;> simp [migrate_loop, apply_migrations]

/-- C9: the migration tool exits 0 exactly when the database opens,
locks, checkpoints and is already at the target version, and exits 1
otherwise; in every outcome the `{path}.migrated` temporary is gone
and the original database file is still at its path (with
`SCHEMA_VERSION = 10` and no registered 9→10 migration,
`migrate_via_copy` fails for every stored version below 10, so the
backup/rename phase is never reached); a stored version above the
target or below 6 is refused. -/
theorem wake_migrate_spec (w : MigrateWorld) :
    ((wake_migrate_main w).exitCode = 0 ∨ (wake_migrate_main w).exitCode = 1) ∧
    ((wake_migrate_main w).exitCode = 0 ↔
      (w.open_ok = true ∧ w.lock_ok = true ∧ w.checkpoint_ok = true ∧
       w.stored_version = target_version)) ∧
    (wake_migrate_main w).migratedExists = false ∧
    (wake_migrate_main w).originalAtPath = true ∧
    (w.stored_version > target_version → (wake_migrate_main w).exitCode ≠ 0) ∧
    (w.stored_version < 6 → (wake_migrate_main w).exitCode ≠ 0) ∧
    (∀ v, 6 ≤ v → v < target_version → migrate_via_copy w v = false) := by
  have hmvc : ∀ v, 6 ≤ v → v < target_version → migrate_via_copy w v = false := by
    intro v h6 hlt
    have hl : migrate_loop w v target_version = false := by
      rw [show target_version = 10 from rfl]
      exact migrate_loop_to_target_false w v (by simpa [target_version] using hlt)
    simp [migrate_via_copy, hl]
  have hres : wake_migrate_main w =
      (if w.open_ok = true ∧ w.lock_ok = true ∧ w.checkpoint_ok = true ∧
          w.stored_version = target_version then (⟨0, false, true, false⟩ : MigrateResult)
       else ⟨1, false, true, false⟩) := by
    unfold wake_migrate_main
    cases hopen : w.open_ok with
    | false => simp [hopen]
    | true =>
      cases hlock : w.lock_ok with
      | false => simp [hlock]
      | true =>
        cases hcp : w.checkpoint_ok with
        | false => simp [hcp]
        | true =>
          simp only [Bool.not_true, Bool.false_eq_true, if_false, true_and]
          by_cases h10 : w.stored_version = target_version
          · simp [h10]
          · by_cases hgt : w.stored_version > target_version
            · simp [h10, hgt]
            · by_cases h6 : w.stored_version < 6
              · simp [h10, hgt, h6]
              · have hm := hmvc w.stored_version (by omega)
                  (by simp only [target_version] at hgt h10 ⊢; omega)
                simp [h10, hgt, h6, hm]
  rw [hres]
  by_cases hc : w.open_ok = true ∧ w.lock_ok = true ∧ w.checkpoint_ok = true ∧
      w.stored_version = target_version
  · rw [if_pos hc]
    refine ⟨Or.inl rfl, by simpa using hc, rfl, rfl, ?_, ?_, hmvc⟩
    · intro hgt
      exfalso
      have := hc.2.2.2
      omega
    · intro hlt
      exfalso
      have := hc.2.2.2
      simp only [target_version] at this
      omega
  · rw [if_neg hc]
    exact ⟨Or.inr rfl, by simpa using hc, rfl, rfl, fun _ => by simp, fun _ => by simp, hmvc⟩

/-- C9, witness: the all-oracles-succeed world over a version-7
database exits 1 (no 9→10 migration is registered) with the
temporary removed and the original in place. -/
theorem wake_migrate_spec_witness :
    (wake_migrate_main mw_ok_v7).exitCode = 1 ∧
    (wake_migrate_main mw_ok_v7).migratedExists = false ∧
    (wake_migrate_main mw_ok_v7).originalAtPath = true := by
  have h := wake_migrate_spec mw_ok_v7
  refine ⟨?_, h.2.2.1, h.2.2.2.1⟩
  rcases h.1 with h0 | h1
  · exfalso
    have hv := (h.2.1.mp h0).2.2.2
    have : mw_ok_v7.stored_version = 7 := rfl
    simp only [target_version] at hv
    omega
  · exact h1

/-! ## C1: store_blob / read_blob / has_blob -/

/-- C1: when `store_blob(b)` succeeds with hash `h = H b` on a store
satisfying the blob invariant (with a collision-free hash), `has_blob h`
holds, `read_blob h` returns exactly `b`, a second `store_blob` of the
same bytes returns the same hash and leaves the store unchanged, and
from an empty store the two calls leave exactly one blob file. -/
theorem store_blob_spec {κ : Type} [DecidableEq κ] (H : ByteStr → κ) (st : CasState κ)
    (b : ByteStr) (hinv : CasInv H st) (hinj : Function.Injective H) :
    (Cas.store_blob H st b).1 = H b ∧
    Cas.has_blob (Cas.store_blob H st b).2 (H b) = true ∧
    Cas.read_blob (Cas.store_blob H st b).2 (H b) = .ok b ∧
    Cas.store_blob H (Cas.store_blob H st b).2 b = Cas.store_blob H st b ∧
    (st.blobs = [] → (Cas.store_blob H st b).2.blobs.length = 1) := by
  cases hl : alookup (H b) st.blobs with
  | some c =>
    have hcb : c = b := hinj (hinv _ _ hl)
    subst hcb
    refine ⟨?_, ?_, ?_, ?_, ?_⟩
    · simp [Cas.store_blob, hl]
    · simp [Cas.store_blob, Cas.has_blob, hl]
    · simp [Cas.store_blob, Cas.read_blob, hl]
    · simp [Cas.store_blob, hl]
    · intro he
      rw [he] at hl
      simp [alookup] at hl
  | none =>
    refine ⟨?_, ?_, ?_, ?_, ?_⟩
    · simp [Cas.store_blob, hl]
    · simp [Cas.store_blob, Cas.has_blob, hl, alookup]
    · simp [Cas.store_blob, Cas.read_blob, hl, alookup]
    · simp [Cas.store_blob, hl, alookup]
    · intro he
      simp [Cas.store_blob, he, alookup]

/-- C1, witness: storing the byte string `"x"` (byte 120) twice in an
empty store over the identity hash. -/
theorem store_blob_spec_witness :
    (Cas.store_blob (fun bs => bs) (⟨[]⟩ : CasState ByteStr) [120]).1 = [120] ∧
    Cas.has_blob (Cas.store_blob (fun bs => bs) (⟨[]⟩ : CasState ByteStr) [120]).2
      [120] = true ∧
    Cas.read_blob (Cas.store_blob (fun bs => bs) (⟨[]⟩ : CasState ByteStr) [120]).2
      [120] = .ok [120] ∧
    Cas.store_blob (fun bs => bs)
      (Cas.store_blob (fun bs => bs) (⟨[]⟩ : CasState ByteStr) [120]).2 [120] =
      Cas.store_blob (fun bs => bs) (⟨[]⟩ : CasState ByteStr) [120] ∧
    (Cas.store_blob (fun bs => bs) (⟨[]⟩ : CasState ByteStr) [120]).2.blobs.length = 1 := by
  have h := store_blob_spec (κ := ByteStr) (fun bs => bs) ⟨[]⟩ [120]
    (by intro x c hc; simp [alookup] at hc) (fun x y hxy => hxy)
  exact ⟨h.1, h.2.1, h.2.2.1, h.2.2.2.1, h.2.2.2.2 rfl⟩

/-! ## C5: resource manager bounds -/

/-- C5, counterexample: with limit `cpu = 1`, the requirement list
`[(cpu,1), (cpu,1)]` passes `can_acquire` (each entry is checked
against the same snapshot), yet the guarded acquire drives the
available count to `-1`, outside `[0, 1]`. -/
theorem resource_bounds_counterexample :
    can_acquire [("cpu", 1)] [("cpu", 1)] [("cpu", 1), ("cpu", 1)] = true ∧
    rrun [("cpu", 1)] [ROp.acq [("cpu", 1), ("cpu", 1)]] = [("cpu", -1)] ∧
    alookup "cpu" (rrun [("cpu", 1)] [ROp.acq [("cpu", 1), ("cpu", 1)]]) = some (-1) ∧
    ((-1 : Int) < 0) := by
  refine ⟨?_, ?_, ?_, ?_⟩ <;> decide

theorem can_acquire_congr (limits : List (String × Int)) (reqs : List (String × Int)) :
    ∀ (av av2 : List (String × Int)),
      (∀ r ∈ reqs, alookup r.1 av2 = alookup r.1 av) →
      can_acquire limits av2 reqs = can_acquire limits av reqs := by
  induction reqs with
  | nil => intro av av2 _; rfl
  | cons r rest ih =>
    intro av av2 h
    simp only [can_acquire, List.all_cons]
    rw [h r (List.mem_cons_self _ _)]
    have ihr := ih av av2 (fun x hx => h x (List.mem_cons_of_mem _ hx))
    simp only [can_acquire] at ihr
    rw [ihr]

theorem acquire_preserves (limits : List (String × Int)) (reqs : List (String × Int)) :
    ∀ av, avail_in_bounds limits av → can_acquire limits av reqs = true →
      (reqs.map Prod.fst).Nodup → avail_in_bounds limits (acquire limits av reqs) := by
  induction reqs with
  | nil => intro av hinv _ _; simpa [acquire] using hinv
  | cons r rest ih =>
    intro av hinv hcan hnd
    obtain ⟨n, c⟩ := r
    rw [can_acquire, List.all_cons, Bool.and_eq_true] at hcan
    obtain ⟨hr, hrest⟩ := hcan
    rw [List.map_cons, List.nodup_cons] at hnd
    obtain ⟨hnmem, hndrest⟩ := hnd
    by_cases hc : c ≤ 0
    · have : acquire limits av ((n, c) :: rest) = acquire limits av rest := by
        simp [acquire, hc]
      rw [this]
      exact ih av hinv hrest hndrest
    · by_cases hlim : get_limit limits n < 0
      · have : acquire limits av ((n, c) :: rest) = acquire limits av rest := by
          simp [acquire, hc, hlim]
        rw [this]
        exact ih av hinv hrest hndrest
      · have hstep : acquire limits av ((n, c) :: rest) =
            acquire limits (amodify n (fun a => a - c) av) rest := by
          simp [acquire, hc, hlim]
        rw [hstep]
        simp only [if_neg hc, if_neg hlim] at hr
        cases hla : alookup n av with
        | none => rw [hla] at hr; cases hr
        | some a =>
          rw [hla] at hr
          have hca : c ≤ a := of_decide_eq_true hr
          have hinv2 : avail_in_bounds limits (amodify n (fun x => x - c) av) := by
            intro m L hm
            by_cases hmn : m = n
            · subst hmn
              obtain ⟨a2, ha2, h0, hL⟩ := hinv m L hm
              rw [hla] at ha2
              obtain rfl : a = a2 := Option.some.inj ha2
              refine ⟨a - c, ?_, by omega, by omega⟩
              rw [alookup_amodify_self, hla]
              rfl
            · obtain ⟨a2, ha2, h0, hL⟩ := hinv m L hm
              exact ⟨a2, by rw [alookup_amodify_other _ hmn, ha2], h0, hL⟩
          have hcan2 : can_acquire limits (amodify n (fun x => x - c) av) rest =
              can_acquire limits av rest := by
            apply can_acquire_congr
            intro x hx
            have hxn : x.1 ≠ n := by
              intro he
              apply hnmem
              rw [← he]
              exact List.mem_map.mpr ⟨x, hx, rfl⟩
            exact alookup_amodify_other _ hxn _
          exact ih _ hinv2 (by rw [hcan2]; exact hrest) hndrest

theorem release_preserves (limits : List (String × Int))
    (hpos : ∀ p ∈ limits, 0 ≤ p.2) (reqs : List (String × Int)) :
    ∀ av, avail_in_bounds limits av → avail_in_bounds limits (release limits av reqs) := by
  induction reqs with
  | nil => intro av hinv; simpa [release] using hinv
  | cons r rest ih =>
    intro av hinv
    obtain ⟨n, c⟩ := r
    by_cases hc : c ≤ 0
    · have : release limits av ((n, c) :: rest) = release limits av rest := by
        simp [release, hc]
      rw [this]
      exact ih av hinv
    · by_cases hlim : get_limit limits n < 0
      · have : release limits av ((n, c) :: rest) = release limits av rest := by
          simp [release, hc, hlim]
        rw [this]
        exact ih av hinv
      · have hstep : release limits av ((n, c) :: rest) = release limits
            (amodify n (fun a => if a + c > get_limit limits n then get_limit limits n
              else a + c) av) rest := by
          simp [release, hc, hlim]
        rw [hstep]
        apply ih
        intro m L hm
        by_cases hmn : m = n
        · subst hmn
          obtain ⟨a2, ha2, h0, hL⟩ := hinv m L hm
          have hgl : get_limit limits m = L := by
            rw [get_limit, hm]
            rfl
          refine ⟨if a2 + c > L then L else a2 + c, ?_, ?_, ?_⟩
          · rw [alookup_amodify_self, ha2, hgl]
            rfl
          · split_ifs with hcl
            · exact hpos _ (alookup_eq_some_mem hm)
            · omega
          · split_ifs with hcl
            · exact le_refl L
            · omega
        · obtain ⟨a2, ha2, h0, hL⟩ := hinv m L hm
          exact ⟨a2, by rw [alookup_amodify_other _ hmn, ha2], h0, hL⟩

/-- C5 (amended): with non-negative configured limits, across any
sequence of `can_acquire`-guarded acquires and releases in which no
single acquire names the same resource twice, every configured
resource's available count stays within `[0, L]`; a requirement list
repeating a name can pass `can_acquire` and drive the count negative
(see the counterexample), which is the only weakening of the claim. -/
theorem resource_available_in_bounds (limits : List (String × Int)) (ops : List ROp)
    (hpos : ∀ p ∈ limits, 0 ≤ p.2)
    (hnd : ∀ reqs, ROp.acq reqs ∈ ops → (reqs.map Prod.fst).Nodup) :
    ∀ n L, alookup n limits = some L →
      ∃ a, alookup n (rrun limits ops) = some a ∧ 0 ≤ a ∧ a ≤ L := by
  have hinit : avail_in_bounds limits limits := by
    intro n L hl
    exact ⟨L, hl, hpos _ (alookup_eq_some_mem hl), le_refl L⟩
  have hfold : ∀ (ops2 : List ROp) (av : List (String × Int)),
      avail_in_bounds limits av →
      (∀ reqs, ROp.acq reqs ∈ ops2 → (reqs.map Prod.fst).Nodup) →
      avail_in_bounds limits (ops2.foldl (rstep limits) av) := by
    intro ops2
    induction ops2 with
    | nil => intro av hinv _; simpa using hinv
    | cons op rest ih =>
      intro av hinv hnd2
      rw [List.foldl_cons]
      apply ih
      · cases op with
        | acq reqs =>
          rw [rstep]
          cases hcan : can_acquire limits av reqs with
          | false => simpa using hinv
          | true =>
            simp only [if_pos rfl, if_true]
            exact acquire_preserves limits reqs av hinv hcan
              (hnd2 reqs (List.mem_cons_self _ _))
        | rel reqs => exact release_preserves limits hpos reqs av hinv
      · intro reqs hr
        exact hnd2 reqs (List.mem_cons_of_mem _ hr)
  exact hfold ops limits hinit hnd

/-! ## C8: staging ingest rejects hash mismatches -/

theorem nibble_to_hex_inj {x y : Nat} (hx : x < 16) (hy : y < 16)
    (h : nibble_to_hex x = nibble_to_hex y) : x = y := by
  unfold nibble_to_hex at h
  split_ifs at h <;> omega

theorem to_hex_inj : ∀ (bs cs : List Nat), (∀ x ∈ bs, x < 256) → (∀ x ∈ cs, x < 256) →
    to_hex bs = to_hex cs → bs = cs := by
  intro bs
  induction bs with
  | nil =>
    intro cs _ _ h
    cases cs with
    | nil => rfl
    | cons c cs2 => rw [to_hex, to_hex] at h; cases h
  | cons b bs2 ih =>
    intro cs hb hcs h
    cases cs with
    | nil => rw [to_hex, to_hex] at h; cases h
    | cons c cs2 =>
      rw [to_hex, to_hex] at h
      injection h with h1 h23
      injection h23 with h2 h3
      have hb256 : b < 256 := hb b (by simp)
      have hc256 : c < 256 := hcs c (by simp)
      have e1 : b / 16 % 16 = c / 16 % 16 :=
        nibble_to_hex_inj (by omega) (by omega) h1
      have e2 : b % 16 = c % 16 := nibble_to_hex_inj (by omega) (by omega) h2
      have hbc : b = c := by omega
      rw [hbc, ih cs2 (fun x hx => hb x (by simp [hx])) (fun x hx => hcs x (by simp [hx])) h3]

theorem from_hex_ok_bytes {s bs : List Nat} (h : from_hex s = .ok bs) :
    hex_pairs_to_bytes s = some bs := by
  unfold from_hex at h
  split at h
  · cases h
  · split at h
    · cases h
    · rename_i bs2 heq
      cases h
      exact heq

/-- C8: ingesting a staged regular file whose content hashes to a
value different from the supplied expected hash returns an error
message containing both the expected and the actual hash, and neither
touches the destination path nor any other workspace file. -/
theorem ingest_file_hash_mismatch (H : ByteStr → List Nat) (fs : WFS) (dest staging : String)
    (hash_str : List Nat) (mode : Nat) (ms mns : Int) (c : ByteStr) (expected : List Nat)
    (hstag : alookup staging fs.workspace = some c)
    (hexp : from_hex hash_str = .ok expected)
    (hne : H c ≠ expected)
    (hwf : ∀ x ∈ H c, x < 256) :
    (ingest_file H fs dest staging hash_str mode ms mns).1 =
      .error (strCodes "Hash mismatch: expected " ++ hash_str ++
        strCodes " but got " ++ to_hex (H c)) ∧
    (∃ u v, strCodes "Hash mismatch: expected " ++ hash_str ++
        strCodes " but got " ++ to_hex (H c) = u ++ hash_str ++ v) ∧
    (∃ u v, strCodes "Hash mismatch: expected " ++ hash_str ++
        strCodes " but got " ++ to_hex (H c) = u ++ to_hex (H c) ++ v) ∧
    (ingest_file H fs dest staging hash_str mode ms mns).2.workspace = fs.workspace := by
  have hexpbytes : ∀ x ∈ expected, x < 256 :=
    hex_pairs_to_bytes_lt _ _ (from_hex_ok_bytes hexp)
  have hhex_ne : ¬(to_hex expected = to_hex (H c)) := by
    intro hcontra
    exact hne (to_hex_inj _ _ hwf hexpbytes hcontra.symm)
  cases hcas : alookup (H c) fs.cas with
  | some blob =>
    simp only [ingest_file, CASStore.store_blob_from_file, hstag, hcas, hexp]
    rw [if_neg hhex_ne]
    refine ⟨rfl, ?_, ?_, rfl⟩
    · exact ⟨strCodes "Hash mismatch: expected ",
        strCodes " but got " ++ to_hex (H c), by simp [List.append_assoc]⟩
    · exact ⟨strCodes "Hash mismatch: expected " ++ hash_str ++ strCodes " but got ",
        [], by simp [List.append_assoc]⟩
  | none =>
    simp only [ingest_file, CASStore.store_blob_from_file, hstag, hcas, hexp]
    rw [if_neg hhex_ne]
    refine ⟨rfl, ?_, ?_, rfl⟩
    · exact ⟨strCodes "Hash mismatch: expected ",
        strCodes " but got " ++ to_hex (H c), by simp [List.append_assoc]⟩
    · exact ⟨strCodes "Hash mismatch: expected " ++ hash_str ++ strCodes " but got ",
        [], by simp [List.append_assoc]⟩

/-- C8, witness: a staged file containing the byte `B` against the
all-zero expected hash is rejected with both hashes in the message
and the workspace untouched. -/
theorem ingest_file_hash_mismatch_witness :
    (ingest_file (fun _ => 1 :: List.replicate 31 0) ⟨[("s", [66])], []⟩ "d" "s"
      (List.replicate 64 48) 420 0 0).1 =
      .error (strCodes "Hash mismatch: expected " ++ List.replicate 64 48 ++
        strCodes " but got " ++ to_hex (1 :: List.replicate 31 0)) ∧
    (ingest_file (fun _ => 1 :: List.replicate 31 0) ⟨[("s", [66])], []⟩ "d" "s"
      (List.replicate 64 48) 420 0 0).2.workspace = [("s", [66])] := by
  have h := ingest_file_hash_mismatch (fun _ => 1 :: List.replicate 31 0)
    ⟨[("s", [66])], []⟩ "d" "s" (List.replicate 64 48) 420 0 0 [66] (List.replicate 32 0)
    (by decide) rfl (by decide) (by decide)
  exact ⟨h.1, h.2.2.2⟩

/-! ## C10: recorded inputs stay within the visible set -/

theorem insert_tree_rows_mem {db : DB} {a j : Nat} {p : String} {t : TreeRow}
    (ht : t ∈ insert_tree_rows db a j p) :
    t ∈ db.filetree ∨ (t.access = a ∧ t.job_id = j ∧ t.path = p) := by
  unfold insert_tree_rows at ht
  cases hl : alookup p db.files with
  | none => rw [hl] at ht; exact Or.inl ht
  | some h =>
    rw [hl] at ht
    change t ∈ (if (db.filetree.any fun t2 => t2.job_id == j && t2.access == a &&
        t2.path == p) = true then db.filetree else db.filetree ++ [⟨a, j, p, h⟩]) at ht
    by_cases hdup :
        (db.filetree.any fun t2 => t2.job_id == j && t2.access == a && t2.path == p) = true
    · rw [if_pos hdup] at ht
      exact Or.inl ht
    · rw [if_neg hdup] at ht
      rcases List.mem_append.mp ht with h2 | h2
      · exact Or.inl h2
      · rcases List.mem_singleton.mp h2 with rfl
        exact Or.inr ⟨rfl, rfl, rfl⟩

theorem insert_tree_rows_mono {db : DB} {a j : Nat} {p : String} {t : TreeRow}
    (ht : t ∈ db.filetree) : t ∈ insert_tree_rows db a j p := by
  unfold insert_tree_rows
  cases hl : alookup p db.files with
  | none => exact ht
  | some h =>
    show t ∈ if (db.filetree.any fun t2 => t2.job_id == j && t2.access == a && t2.path == p)
        = true then db.filetree else db.filetree ++ [⟨a, j, p, h⟩]
    by_cases hdup :
        (db.filetree.any fun t2 => t2.job_id == j && t2.access == a && t2.path == p) = true
    · rw [if_pos hdup]
      exact ht
    · rw [if_neg hdup]
      exact List.mem_append_left _ ht

theorem foldl_insert_tree_mem {a j : Nat} :
    ∀ (ps : List String) (dbx : DB) (t : TreeRow),
      t ∈ (ps.foldl (fun d p => insert_tree d a j p) dbx).filetree →
      t ∈ dbx.filetree ∨ (t.access = a ∧ t.job_id = j) := by
  intro ps
  induction ps with
  | nil => intro dbx t ht; exact Or.inl ht
  | cons p rest ih =>
    intro dbx t ht
    rw [List.foldl_cons] at ht
    rcases ih (insert_tree dbx a j p) t ht with h | h
    · rcases insert_tree_rows_mem h with h2 | h2
      · exact Or.inl h2
      · exact Or.inr ⟨h2.1, h2.2.1⟩
    · exact Or.inr h

theorem foldl_insert_tree_mono {a j : Nat} :
    ∀ (ps : List String) (dbx : DB) (t : TreeRow),
      t ∈ dbx.filetree → t ∈ (ps.foldl (fun d p => insert_tree d a j p) dbx).filetree := by
  intro ps
  induction ps with
  | nil => intro dbx t ht; exact ht
  | cons p rest ih =>
    intro dbx t ht
    rw [List.foldl_cons]
    exact ih _ t (insert_tree_rows_mono ht)

theorem foldl_finish_inputs_mem (job : Nat) (visible : List String) :
    ∀ (inputs : List String) (acc : DB × List String) (t : TreeRow),
      t ∈ (inputs.foldl (finish_inputs job visible) acc).1.filetree →
      t ∈ acc.1.filetree ∨ (t.access = INPUT ∧ t.job_id = job ∧ t.path ∈ visible) := by
  intro inputs
  induction inputs with
  | nil => intro acc t ht; exact Or.inl ht
  | cons i rest ih =>
    intro acc t ht
    rw [List.foldl_cons] at ht
    rcases ih (finish_inputs job visible acc i) t ht with h | h
    · unfold finish_inputs at h
      by_cases hvis : visible.contains i = true
      · rw [if_pos hvis] at h
        rcases insert_tree_rows_mem h with h2 | h2
        · exact Or.inl h2
        · refine Or.inr ⟨h2.1, h2.2.1, ?_⟩
          rw [h2.2.2]
          exact List.elem_iff.mp hvis
      · rw [if_neg hvis] at h
        exact Or.inl h
    · exact Or.inr h

theorem foldl_finish_inputs_mono (job : Nat) (visible : List String) :
    ∀ (inputs : List String) (acc : DB × List String) (t : TreeRow),
      t ∈ acc.1.filetree → t ∈ (inputs.foldl (finish_inputs job visible) acc).1.filetree := by
  intro inputs
  induction inputs with
  | nil => intro acc t ht; exact ht
  | cons i rest ih =>
    intro acc t ht
    rw [List.foldl_cons]
    apply ih
    unfold finish_inputs
    by_cases hvis : visible.contains i = true
    · rw [if_pos hvis]
      exact insert_tree_rows_mono ht
    · rw [if_neg hvis]
      exact ht

theorem foldl_finish_inputs_errs_mono (job : Nat) (visible : List String) :
    ∀ (inputs : List String) (acc : DB × List String) (q : String),
      q ∈ acc.2 → q ∈ (inputs.foldl (finish_inputs job visible) acc).2 := by
  intro inputs
  induction inputs with
  | nil => intro acc q hq; exact hq
  | cons i rest ih =>
    intro acc q hq
    rw [List.foldl_cons]
    apply ih
    unfold finish_inputs
    by_cases hvis : visible.contains i = true
    · rw [if_pos hvis]
      exact hq
    · rw [if_neg hvis]
      exact List.mem_append_left _ hq

theorem foldl_finish_inputs_errs (job : Nat) (visible : List String) :
    ∀ (inputs : List String) (acc : DB × List String) (p : String),
      p ∈ inputs → visible.contains p = false →
      p ∈ (inputs.foldl (finish_inputs job visible) acc).2 := by
  intro inputs
  induction inputs with
  | nil => intro acc p hp _; cases hp
  | cons i rest ih =>
    intro acc p hp hnc
    rw [List.foldl_cons]
    rcases List.mem_cons.mp hp with rfl | hp2
    · apply foldl_finish_inputs_errs_mono
      unfold finish_inputs
      rw [if_neg (by rw [hnc]; exact Bool.false_ne_true)]
      exact List.mem_append_right _ (List.mem_singleton.mpr rfl)
    · exact ih _ p hp2 hnc

theorem cascade_mem {dbx : DB} {jobs2 : List JobRow} {t : TreeRow} :
    t ∈ (cascade_jobs dbx jobs2).filetree ↔
      t ∈ dbx.filetree ∧ jobs2.any (fun r2 => r2.job_id == t.job_id) = true := by
  simp [cascade_jobs, List.mem_filter]

theorem finish_prune_mem {db5 : DB} {job : Nat} {t : TreeRow}
    (ht : t ∈ (finish_prune db5 job).filetree) : t ∈ db5.filetree := by
  unfold finish_prune at ht
  exact (cascade_mem.mp (cascade_mem.mp ht).1).1

theorem finish_prune_colift {db5 : DB} {job : Nat} {t tv : TreeRow}
    (ht : t ∈ (finish_prune db5 job).filetree) (htv : tv ∈ db5.filetree)
    (hj : tv.job_id = t.job_id) : tv ∈ (finish_prune db5 job).filetree := by
  unfold finish_prune at ht ⊢
  have h1 := cascade_mem.mp ht
  have h2 := cascade_mem.mp h1.1
  refine cascade_mem.mpr ⟨cascade_mem.mpr ⟨htv, ?_⟩, ?_⟩
  · rw [hj]
    exact h2.2
  · rw [hj]
    exact h1.2

theorem mem_vis_paths {dbx : DB} {j : Nat} {p : String} :
    p ∈ vis_paths dbx j ↔
      ∃ t, t ∈ dbx.filetree ∧ t.job_id = j ∧ t.access = VISIBLE ∧ t.path = p := by
  unfold vis_paths get_tree
  constructor
  · intro h
    rw [List.mem_map] at h
    obtain ⟨pr, hpr, hfst⟩ := h
    rw [List.mem_map] at hpr
    obtain ⟨t, htf, hmk⟩ := hpr
    rw [List.mem_filter, Bool.and_eq_true] at htf
    refine ⟨t, htf.1, beq_iff_eq.mp htf.2.1, beq_iff_eq.mp htf.2.2, ?_⟩
    rw [← hmk] at hfst
    exact hfst
  · rintro ⟨t, htf, hj, ha, hp⟩
    rw [List.mem_map]
    refine ⟨(t.path, t.hash), List.mem_map.mpr ⟨t, List.mem_filter.mpr ⟨htf, ?_⟩, rfl⟩, hp⟩
    rw [Bool.and_eq_true]
    exact ⟨beq_iff_eq.mpr hj, beq_iff_eq.mpr ha⟩

/-- Preservation core: if every final row is an original row or a
new row of `job` whose INPUT paths were visible, and rows of one job
survive together, the inputs-within-visible invariant carries over. -/
theorem inputs_visible_lift (db dbF : DB) (job : Nat)
    (hclass : ∀ t ∈ dbF.filetree, t ∈ db.filetree ∨
      (t.job_id = job ∧ (t.access = INPUT → t.path ∈ vis_paths db job)))
    (hlift : ∀ t ∈ dbF.filetree, ∀ tv ∈ db.filetree, tv.job_id = t.job_id →
      tv ∈ dbF.filetree) :
    ∀ j, inputs_visible db j → inputs_visible dbF j := by
  intro j hinv t ht hjid hacc
  have hvis : t.path ∈ vis_paths db j := by
    rcases hclass t ht with h | ⟨hjj, himp⟩
    · exact hinv t h hjid hacc
    · have hjeq : j = job := by rw [← hjid, hjj]
      rw [hjeq]
      exact himp hacc
  obtain ⟨tv, htv, htvj, htva, htvp⟩ := mem_vis_paths.mp hvis
  exact mem_vis_paths.mpr ⟨tv, hlift t ht tv htv (by rw [htvj, hjid]), htvj, htva, htvp⟩

theorem finish_files_mem (db2 : DB) (job : Nat) (ins outs : List String) {t : TreeRow}
    (ht : t ∈ (finish_files db2 job ins outs).1.filetree) :
    t ∈ db2.filetree ∨ (t.job_id = job ∧
      ((t.access = INPUT ∧ t.path ∈ vis_paths db2 job) ∨ t.access = OUTPUT)) := by
  unfold finish_files at ht
  rcases foldl_insert_tree_mem _ _ _ ht with h | h
  · rcases foldl_finish_inputs_mem job (vis_paths db2 job) ins (db2, []) t h with h2 | h2
    · exact Or.inl h2
    · exact Or.inr ⟨h2.2.1, Or.inl ⟨h2.1, h2.2.2⟩⟩
  · exact Or.inr ⟨h.2, Or.inr h.1⟩

theorem finish_files_mono (db2 : DB) (job : Nat) (ins outs : List String) {t : TreeRow}
    (ht : t ∈ db2.filetree) : t ∈ (finish_files db2 job ins outs).1.filetree :=
  foldl_insert_tree_mono _ _ _ (foldl_finish_inputs_mono job _ ins (db2, []) t ht)

theorem finish_files_errs (db2 : DB) (job : Nat) (ins outs : List String) {p : String}
    (hp : p ∈ ins) (hnv : p ∉ vis_paths db2 job) :
    p ∈ (finish_files db2 job ins outs).2 := by
  unfold finish_files
  apply foldl_finish_inputs_errs
  · exact hp
  · cases hc : (vis_paths db2 job).contains p with
    | false => rfl
    | true => exact absurd (List.elem_iff.mp hc) hnv

/-- C10: `finish_job` preserves, for every job, the invariant that
the recorded input rows lie within the recorded visible paths; an
input not in the finishing job's visible set is reported in the error
list and no INPUT filetree row is created for it. -/
theorem finish_job_inputs_visible (db : DB) (job : Nat)
    (inputs outputs all_outputs : List String) (st et : Int) (hc : Nat) (keep : Bool)
    (reality : Usage) :
    (∀ j, inputs_visible db j →
      inputs_visible (finish_job db job inputs outputs all_outputs st et hc keep reality).1 j) ∧
    (∀ p ∈ inputs, p ∉ vis_paths db job →
      p ∈ (finish_job db job inputs outputs all_outputs st et hc keep reality).2.1 ∧
      ∀ t ∈ (finish_job db job inputs outputs all_outputs st et hc keep reality).1.filetree,
        t.job_id = job → t.access = INPUT → t.path = p → t ∈ db.filetree) := by
  have hvp2 : vis_paths (finish_stats db job st et hc keep reality) job = vis_paths db job :=
    rfl
  constructor
  · intro j hinv
    apply inputs_visible_lift db _ job ?_ ?_ j hinv
    · intro t ht
      have ht5 : t ∈ (finish_files (finish_stats db job st et hc keep reality) job inputs
          outputs).1.filetree := finish_prune_mem ht
      rcases finish_files_mem _ _ _ _ ht5 with h | ⟨hjj, hio⟩
      · exact Or.inl h
      · refine Or.inr ⟨hjj, fun hacc => ?_⟩
        rcases hio with ⟨_, hvp⟩ | hout
        · rw [← hvp2]
          exact hvp
        · exfalso
          rw [hacc] at hout
          exact absurd hout (by decide)
    · intro t ht tv htv hj
      have htv5 : tv ∈ (finish_files (finish_stats db job st et hc keep reality) job inputs
          outputs).1.filetree := finish_files_mono _ _ _ _ htv
      exact finish_prune_colift ht htv5 hj
  · intro p hp hnv
    constructor
    · exact finish_files_errs (finish_stats db job st et hc keep reality) job inputs outputs
        hp (by rw [hvp2]; exact hnv)
    · intro t ht hjid hacc hpath
      have ht5 : t ∈ (finish_files (finish_stats db job st et hc keep reality) job inputs
          outputs).1.filetree := finish_prune_mem ht
      rcases finish_files_mem _ _ _ _ ht5 with h | ⟨hjj, hio⟩
      · exact h
      · exfalso
        rcases hio with ⟨_, hvp⟩ | hout
        · apply hnv
          rw [← hpath, ← hvp2]
          exact hvp
        · rw [hacc] at hout
          exact absurd hout (by decide)

/-- C10, witness: finishing job 1 with inputs `a.txt` (visible) and
`b.txt` (not visible) keeps the invariant and reports `b.txt`. -/
theorem finish_job_inputs_visible_witness :
    inputs_visible
      (finish_job db_vis_job 1 ["a.txt", "b.txt"] [] [] 0 0 0 true Usage.notFound).1 1 ∧
    "b.txt" ∈
      (finish_job db_vis_job 1 ["a.txt", "b.txt"] [] [] 0 0 0 true Usage.notFound).2.1 := by
  have h := finish_job_inputs_visible db_vis_job 1 ["a.txt", "b.txt"] [] [] 0 0 0 true
    Usage.notFound
  refine ⟨h.1 1 ?_, (h.2 "b.txt" (by decide) ?_).1⟩
  · unfold inputs_visible
    decide
  · decide

/-! ## C4: delete_prior and the identity columns -/

theorem pairwise_id_eq {jobs : List JobRow}
    (h : jobs.Pairwise (fun a b => a.job_id ≠ b.job_id))
    {a b : JobRow} (ha : a ∈ jobs) (hb : b ∈ jobs) (hid : a.job_id = b.job_id) : a = b := by
  induction jobs with
  | nil => cases ha
  | cons x rest ih =>
    rw [List.pairwise_cons] at h
    rcases List.mem_cons.mp ha with rfl | ha2
    · rcases List.mem_cons.mp hb with rfl | hb2
      · rfl
      · exact absurd hid (h.1 b hb2)
    · rcases List.mem_cons.mp hb with rfl | hb2
      · exact absurd hid.symm (h.1 a ha2)
      · exact ih h.2 ha2 hb2

/-- C4, counterexample: `sql_delete_prior` does not compare the
signature column, so the prior job 1, which differs from the current
job 2 only in its signature, is deleted even though the claim says a
row differing in an identity column is retained. -/
theorem delete_prior_signature_counterexample :
    same_identity jrow_sig5 jrow_sig6 = false ∧
    jrow_sig5.use_id < 1 ∧
    delete_prior 1 2 [jrow_sig5, jrow_sig6] = [jrow_sig6] ∧
    jrow_sig5 ∉ delete_prior 1 2 [jrow_sig5, jrow_sig6] := by
  refine ⟨by decide, by decide, by decide, by decide⟩

/-- C4 (amended): after `finish_job` of job `j` commits, `delete_prior`
deletes every other row that matches `j` on (directory, commandline,
environment, stdin, is_atty) — the join omits the signature column —
and whose `use_id` differs from the current run (in particular every
such row with `use_id` below the current run, and also rows differing
from `j` only in signature); every row differing from `j` in one of
the five compared columns, or carrying the current run's `use_id`, is
retained. -/
theorem delete_prior_amended (run job : Nat) (jobs : List JobRow) (jrow r : JobRow)
    (huniq : jobs.Pairwise (fun a b => a.job_id ≠ b.job_id))
    (hjmem : jrow ∈ jobs) (hjid : jrow.job_id = job)
    (hrmem : r ∈ jobs) (hrid : r.job_id ≠ job) :
    (same_identity jrow r = true → r.use_id < run → r ∉ delete_prior run job jobs) ∧
    (same_identity_nosig jrow r = true → r.use_id ≠ run → r ∉ delete_prior run job jobs) ∧
    (same_identity_nosig jrow r = false → r ∈ delete_prior run job jobs) ∧
    (r.use_id = run → r ∈ delete_prior run job jobs) := by
  have hdel : same_identity_nosig jrow r = true → r.use_id ≠ run →
      r ∉ delete_prior run job jobs := by
    intro hs hu hmem2
    rw [delete_prior, List.mem_filter] at hmem2
    have hcond : (r.use_id != run &&
        jobs.any (fun j2 => j2.job_id == r.job_id && j2.job_id != job &&
          jobs.any (fun j1 => j1.job_id == job && same_identity_nosig j1 j2))) = true := by
      rw [Bool.and_eq_true]
      refine ⟨bne_iff_ne.mpr hu, ?_⟩
      rw [List.any_eq_true]
      refine ⟨r, hrmem, ?_⟩
      rw [Bool.and_eq_true, Bool.and_eq_true]
      refine ⟨⟨beq_self_eq_true r.job_id, bne_iff_ne.mpr hrid⟩, ?_⟩
      rw [List.any_eq_true]
      exact ⟨jrow, hjmem, by rw [Bool.and_eq_true]; exact ⟨beq_iff_eq.mpr hjid, hs⟩⟩
    rw [hcond] at hmem2
    cases hmem2.2
  have hkeep : (same_identity_nosig jrow r = false ∨ r.use_id = run) →
      r ∈ delete_prior run job jobs := by
    intro hc
    rw [delete_prior, List.mem_filter]
    refine ⟨hrmem, ?_⟩
    rw [Bool.not_eq_true']
    rcases hc with hc | hc
    · cases hany : jobs.any (fun j2 => j2.job_id == r.job_id && j2.job_id != job &&
          jobs.any (fun j1 => j1.job_id == job && same_identity_nosig j1 j2)) with
      | false => rw [Bool.and_false]
      | true =>
        exfalso
        obtain ⟨j2, hj2mem, hj2⟩ := List.any_eq_true.mp hany
        rw [Bool.and_eq_true, Bool.and_eq_true] at hj2
        obtain ⟨⟨hj2id, _⟩, hj2any⟩ := hj2
        obtain ⟨j1, hj1mem, hj1⟩ := List.any_eq_true.mp hj2any
        rw [Bool.and_eq_true] at hj1
        obtain ⟨hj1id, hj1s⟩ := hj1
        have hj2r : j2 = r := pairwise_id_eq huniq hj2mem hrmem (beq_iff_eq.mp hj2id)
        have hj1j : j1 = jrow := pairwise_id_eq huniq hj1mem hjmem
          (by rw [beq_iff_eq.mp hj1id, hjid])
        rw [hj1j, hj2r, hc] at hj1s
        cases hj1s
    · have hfst : (r.use_id != run) = false := by
        simp [hc]
      rw [hfst, Bool.false_and]
  exact ⟨fun hsig hlt => hdel (by
      rw [same_identity, Bool.and_eq_true] at hsig
      exact hsig.1) (by omega),
    hdel, fun hc => hkeep (Or.inl hc), fun hc => hkeep (Or.inr hc)⟩

/-- C4, witness: the amended theorem at a three-row table — the
signature-only-different prior row is deleted, the
directory-different row is retained. -/
theorem delete_prior_amended_witness :
    jrow_sig5 ∉ delete_prior 1 2 [jrow_sig5, jrow_sig6, jrow_dir] ∧
    jrow_dir ∈ delete_prior 1 2 [jrow_sig5, jrow_sig6, jrow_dir] := by
  have h1 := delete_prior_amended 1 2 [jrow_sig5, jrow_sig6, jrow_dir] jrow_sig6 jrow_sig5
    (by decide) (by decide) (by decide) (by decide) (by decide)
  have h2 := delete_prior_amended 1 2 [jrow_sig5, jrow_sig6, jrow_dir] jrow_sig6 jrow_dir
    (by decide) (by decide) (by decide) (by decide) (by decide)
  exact ⟨h1.2.1 (by decide) (by decide), h2.2.2.1 (by decide)⟩

/-! ## C2: reuse_job demotes on missing inputs or outputs -/

/-- The read-only reuse body answers `found = false` with an empty
file list when some recorded input is not visible or some recorded
output is inaccessible. -/
theorem reuse_eval_demotes (faccess : String → Bool) (db : DB) (jid sid : Nat)
    (visible : List String)
    (hbad : (∃ pr ∈ get_tree db jid INPUT, visible.contains pr.1 = false) ∨
            (∃ pr ∈ get_tree db jid OUTPUT, faccess pr.1 = false)) :
    (reuse_eval faccess db jid sid visible).1.found = false ∧
    (reuse_eval faccess db jid sid visible).2 = [] := by
  rcases hbad with ⟨pr, hmem, hf⟩ | ⟨pr, hmem, hf⟩
  · have hall : (get_tree db jid INPUT).all (fun pr => visible.contains pr.1) = false := by
      cases hq : (get_tree db jid INPUT).all (fun pr => visible.contains pr.1) with
      | false => rfl
      | true =>
        exfalso
        have := List.all_eq_true.mp hq pr hmem
        rw [hf] at this
        cases this
    simp only [reuse_eval]
    rw [hall]
    simp
  · have hall : (get_tree db jid OUTPUT).all (fun pr => faccess pr.1) = false := by
      cases hq : (get_tree db jid OUTPUT).all (fun pr => faccess pr.1) with
      | false => rfl
      | true =>
        exfalso
        have := List.all_eq_true.mp hq pr hmem
        rw [hf] at this
        cases this
    simp only [reuse_eval]
    rw [hall]
    simp

/-- C2: when the identity lookup succeeds but some recorded input
path is not in the caller's visible set, or some recorded output path
fails the `faccessat` check, `reuse_job` returns `found = false` and
an empty output file list. -/
theorem reuse_job_demotes (faccess : String → Bool) (db : DB)
    (directory environment commandline stdin_file : String) (signature : Nat)
    (is_atty : Bool) (visible : List String) (check : Bool) (row : JobRow)
    (hfind : find_prior db directory commandline environment stdin_file signature is_atty =
      some row)
    (hbad : (∃ pr ∈ get_tree db row.job_id INPUT, visible.contains pr.1 = false) ∨
            (∃ pr ∈ get_tree db row.job_id OUTPUT, faccess pr.1 = false)) :
    (reuse_job faccess db directory environment commandline stdin_file signature is_atty
      visible check).1.found = false ∧
    (reuse_job faccess db directory environment commandline stdin_file signature is_atty
      visible check).2.1 = [] := by
  have h := reuse_eval_demotes faccess db row.job_id (row.stat_id.getD 0) visible hbad
  simp only [reuse_job, hfind]
  exact ⟨h.1, h.2⟩

/-- C2, witness: a kept job whose recorded input `a.txt` is not in
the empty visible set is not reused. -/
theorem reuse_job_demotes_witness :
    (reuse_job (fun _ => true) db_one_job "d" "e" "c" "" 0 false [] false).1.found = false ∧
    (reuse_job (fun _ => true) db_one_job "d" "e" "c" "" 0 false [] false).2.1 = [] :=
  reuse_job_demotes (fun _ => true) db_one_job "d" "e" "c" "" 0 false [] false
    ⟨1, 0, 0, "", "d", "c", "e", "", 0, "", some 1, 0, 0, true, false, false⟩
    (by decide) (Or.inl ⟨("a.txt", "h"), by decide, by decide⟩)

/-! ## C3: reuse_job idempotence -/

/-- Bumping `use_id` of a row does not change which row
`sql_find_prior` finds, beyond the bump itself: the identity columns,
`keep` and `stale` are untouched. -/
theorem find_prior_update_use_id (db : DB) (j n : Nat)
    (directory commandline environment stdin_file : String) (signature : Nat)
    (is_atty : Bool) :
    find_prior { db with jobs := update_use_id db.jobs j n } directory commandline
      environment stdin_file signature is_atty =
    (find_prior db directory commandline environment stdin_file signature is_atty).map
      (fun r => if r.job_id == j then { r with use_id := n } else r) := by
  simp only [find_prior, update_use_id]
  rw [List.find?_map]
  have hp : (matches_prior directory commandline environment stdin_file signature is_atty ∘
      fun r => if r.job_id == j then { r with use_id := n } else r) =
      matches_prior directory commandline environment stdin_file signature is_atty := by
    funext r
    by_cases h : r.job_id == j
    · simp [Function.comp, h, matches_prior]
    · simp [Function.comp, h]
  rw [hp]

/-- C3: two consecutive `reuse_job` calls with the same arguments and
no intervening filesystem or database change return the same `Usage`
and the same output-file list; the `use_id` bump performed by the
first call does not affect the second. -/
theorem reuse_job_idempotent (faccess : String → Bool) (db : DB)
    (directory environment commandline stdin_file : String) (signature : Nat)
    (is_atty : Bool) (visible : List String) (check : Bool) :
    (reuse_job faccess
      (reuse_job faccess db directory environment commandline stdin_file signature is_atty
        visible check).2.2
      directory environment commandline stdin_file signature is_atty visible check).1 =
    (reuse_job faccess db directory environment commandline stdin_file signature is_atty
      visible check).1 ∧
    (reuse_job faccess
      (reuse_job faccess db directory environment commandline stdin_file signature is_atty
        visible check).2.2
      directory environment commandline stdin_file signature is_atty visible check).2.1 =
    (reuse_job faccess db directory environment commandline stdin_file signature is_atty
      visible check).2.1 := by
  cases hfind : find_prior db directory commandline environment stdin_file signature is_atty with
  | none =>
    simp [reuse_job, hfind]
  | some row =>
    by_cases hcond : (reuse_eval faccess db row.job_id (row.stat_id.getD 0) visible).1.found
        && !check
    · have hdb2 : (reuse_job faccess db directory environment commandline stdin_file signature
          is_atty visible check).2.2 =
          { db with jobs := update_use_id db.jobs row.job_id db.run_id } := by
        simp [reuse_job, hfind, hcond]
      rw [hdb2]
      have hfind2 : find_prior { db with jobs := update_use_id db.jobs row.job_id db.run_id }
          directory commandline environment stdin_file signature is_atty =
          some { row with use_id := db.run_id } := by
        rw [find_prior_update_use_id, hfind]
        simp
      simp only [reuse_job, hfind, hfind2]
      exact ⟨rfl, rfl⟩
    · have hdb2 : (reuse_job faccess db directory environment commandline stdin_file signature
          is_atty visible check).2.2 = db := by
        simp only [reuse_job, hfind]
        rw [if_neg (by simpa using hcond)]
      rw [hdb2]
      exact ⟨rfl, rfl⟩

/-- C5, witness: the spec's S6 scenario limits, with an acquire of 3
cpus and its release. -/
theorem resource_available_in_bounds_witness :
    ∃ a, alookup "cpu" (rrun [("cpu", 4), ("memory", 8)]
      [ROp.acq [("cpu", 3)], ROp.rel [("cpu", 3)]]) = some a ∧ 0 ≤ a ∧ a ≤ 4 := by
  apply resource_available_in_bounds [("cpu", 4), ("memory", 8)]
    [ROp.acq [("cpu", 3)], ROp.rel [("cpu", 3)]]
  · intro p hp
    rcases List.mem_cons.mp hp with h | h
    · rw [h]; decide
    · rcases List.mem_cons.mp h with h2 | h2
      · rw [h2]; decide
      · simp at h2
  · intro reqs hr
    rcases List.mem_cons.mp hr with h | h
    · cases h; decide
    · rcases List.mem_cons.mp h with h2 | h2
      · cases h2
      · simp at h2
  · decide

end Wake
